import Mathlib

/-!
# Verification of the Eliza↔OpenClaw adapter core

Shallow embedding of the adapter's runtime shim (`src/runtime-bridge.ts`,
class `RuntimeBridge`) and of the in-memory data store
(`src/in-memory-store.ts`, class `InMemoryStore`), with proofs of the
behavioural properties stated in the specification.

Modelling conventions:
* JS strings are Lean `String`s (or `List Char` where character-level
  reasoning is needed, e.g. secret redaction).
* JS `Map`/plain-object dictionaries are association lists
  (`List (String × β)`); `set` replaces the first binding in place or
  appends (JS `Map.set` keeps the original insertion position), `delete`
  removes the binding, lookups return the first binding.
* JS `undefined`/`null` are `Option.none`.
* Asynchronous signatures are irrelevant here (no operation suspends
  between a read and a write of shim/store state, see spec §5), so all
  operations are modelled as pure state transformers.
* IEEE doubles are idealised as an arbitrary linear ordered field `K`,
  and `Math.sqrt` as an explicit function parameter `sqrt : K → K`
  (instantiated with `Real.sqrt` in concrete statements).
-/

namespace ElizaAdapter

/-! ## Association-list primitives (model of JS `Map` / plain objects) -/

/-- First binding for a key, `Map.get` / `obj[key]`. -/
def lookupA {β : Type} : List (String × β) → String → Option β
  | [], _ => none
  | kv :: rest, k => if kv.1 = k then some kv.2 else lookupA rest k

/-- `Map.set` / `obj[key] = v`: replace the first binding in place, else append. -/
def setA {β : Type} : List (String × β) → String → β → List (String × β)
  | [], k, v => [(k, v)]
  | kv :: rest, k, v => if kv.1 = k then (k, v) :: rest else kv :: setA rest k v

/-- `Map.delete` / `delete obj[key]`: remove the binding(s) for a key. -/
def eraseA {β : Type} : List (String × β) → String → List (String × β)
  | [], _ => []
  | kv :: rest, k => if kv.1 = k then eraseA rest k else kv :: eraseA rest k

theorem lookupA_setA_self {β : Type} (m : List (String × β)) (k : String) (v : β) :
    lookupA (setA m k v) k = some v := by
  induction m with
  | nil => simp [setA, lookupA]
  | cons kv rest ih =>
    obtain ⟨k1, v1⟩ := kv
    by_cases h : k1 = k
    · simp [setA, h, lookupA]
    · simp [setA, h, lookupA, ih]

theorem lookupA_setA_ne {β : Type} (m : List (String × β)) (k k' : String) (v : β)
    (h : k' ≠ k) : lookupA (setA m k v) k' = lookupA m k' := by
  have hkk : k ≠ k' := Ne.symm h
  induction m with
  | nil => simp [setA, lookupA, hkk]
  | cons kv rest ih =>
    obtain ⟨k1, v1⟩ := kv
    by_cases hk : k1 = k
    · subst hk
      simp [setA, lookupA, hkk]
    · simp [setA, hk, lookupA, ih]

theorem lookupA_eraseA_self {β : Type} (m : List (String × β)) (k : String) :
    lookupA (eraseA m k) k = none := by
  induction m with
  | nil => simp [eraseA, lookupA]
  | cons kv rest ih =>
    obtain ⟨k1, v1⟩ := kv
    by_cases h : k1 = k
    · simpa [eraseA, h] using ih
    · simpa [eraseA, h, lookupA] using ih

theorem lookupA_eraseA_ne {β : Type} (m : List (String × β)) (k k' : String)
    (h : k' ≠ k) : lookupA (eraseA m k) k' = lookupA m k' := by
  induction m with
  | nil => simp [eraseA, lookupA]
  | cons kv rest ih =>
    obtain ⟨k1, v1⟩ := kv
    by_cases hk : k1 = k
    · subst hk
      simpa [eraseA, lookupA, Ne.symm h] using ih
    · simp [eraseA, hk, lookupA, ih]

/-! ## Settings (`RuntimeBridge.getSetting` / `setSetting`, runtime-bridge.ts)

The bridge holds a `settings` record (`Record<string, string | boolean>`,
seeded from `config.settings`) and `character.settings.secrets` (also
seeded from `config.settings`).  `getSetting` resolves
settings → secrets → `process.env` → null. -/

/-- JS `string | boolean` setting value. -/
inductive SettingValue where
  | str (s : String)
  | bool (b : Bool)
deriving DecidableEq, Repr

abbrev SettingsMap := List (String × SettingValue)

/-- The settings-related state of a `RuntimeBridge`. -/
structure BridgeSettings where
  /-- `this.settings`, seeded with `{ ...opts.config.settings }`. -/
  settings : SettingsMap
  /-- `this.character.settings.secrets`, seeded with `{ ...opts.config.settings }`. -/
  secrets : SettingsMap
deriving DecidableEq, Repr

namespace RuntimeBridge

/-- Constructor: both `settings` and `character.settings.secrets` are copies
of the string-valued `config.settings`. -/
def initSettings (config : List (String × String)) : BridgeSettings :=
  { settings := config.map (fun kv => (kv.1, SettingValue.str kv.2))
    secrets := config.map (fun kv => (kv.1, SettingValue.str kv.2)) }

/-- `getSetting(key)`: `this.settings[key]` if defined, else
`character.settings.secrets[key]` if the key is present, else
`process.env[key]` (a string) if defined, else `null`.
`env` models the process environment. -/
def getSetting (env : List (String × String)) (b : BridgeSettings) (key : String) :
    Option SettingValue :=
  match lookupA b.settings key with
  | some v => some v
  | none =>
    match lookupA b.secrets key with
    | some v => some v
    | none => (lookupA env key).map SettingValue.str

/-- `setSetting(key, value)`: `null` deletes the key from both `settings`
and `secrets`; a non-null value overwrites `settings[key]` only. -/
def setSetting (b : BridgeSettings) (key : String) (value : Option SettingValue) :
    BridgeSettings :=
  match value with
  | none => { settings := eraseA b.settings key, secrets := eraseA b.secrets key }
  | some v => { b with settings := setA b.settings key v }

end RuntimeBridge

/-- C1 counterexample input: config maps `"K" ↦ "cv"`, environment maps
`"K" ↦ "ev"`. -/
def c1Bridge : BridgeSettings := RuntimeBridge.initSettings [("K", "cv")]

/-- C1: the claim asserts that after `setSetting(key, null)`, `getSetting(key)`
returns null even though the environment variable still exists.  False: the
key is deleted from `settings` and `secrets`, so `getSetting` falls through
to `process.env` and returns the environment value `"ev"`, not null. -/
theorem C1_counterexample :
    lookupA [("K", "ev")] "K" = some "ev" ∧
    RuntimeBridge.getSetting [("K", "ev")]
      (RuntimeBridge.setSetting c1Bridge "K" none) "K" = some (SettingValue.str "ev") := by
  constructor
  · rfl
  · rfl

/-- C1 (amended): a config-provided setting wins over an environment variable
with the same key; and after `setSetting(key, null)` the key is removed from
both the settings map and the secrets sub-map, so `getSetting` falls back to
the process environment — it returns the environment value when the variable
exists and null only when it does not. -/
theorem C1_settings_resolution (env config : List (String × String))
    (b : BridgeSettings) (key : String) (v : String)
    (hconfig : lookupA config key = some v) :
    RuntimeBridge.getSetting env (RuntimeBridge.initSettings config) key
        = some (SettingValue.str v) ∧
    RuntimeBridge.getSetting env (RuntimeBridge.setSetting b key none) key
        = (lookupA env key).map SettingValue.str := by
  constructor
  · have hmap : lookupA (config.map (fun kv => (kv.1, SettingValue.str kv.2))) key
        = some (SettingValue.str v) := by
      induction config with
      | nil => simp [lookupA] at hconfig
      | cons kv rest ih =>
        obtain ⟨k1, v1⟩ := kv
        by_cases h : k1 = key
        · simp [lookupA, h] at hconfig ⊢
          exact hconfig
        · simp [lookupA, h] at hconfig ⊢
          exact ih hconfig
    simp [RuntimeBridge.getSetting, RuntimeBridge.initSettings, hmap]
  · simp [RuntimeBridge.getSetting, RuntimeBridge.setSetting,
      lookupA_eraseA_self]

/-- C1 witness: concrete instantiation of `C1_settings_resolution`. -/
theorem C1_settings_resolution_witness :
    RuntimeBridge.getSetting [("K", "ev")] (RuntimeBridge.initSettings [("K", "cv")]) "K"
        = some (SettingValue.str "cv") ∧
    RuntimeBridge.getSetting [("K", "ev")]
        (RuntimeBridge.setSetting c1Bridge "K" none) "K"
        = (lookupA [("K", "ev")] "K").map SettingValue.str :=
  C1_settings_resolution [("K", "ev")] [("K", "cv")] c1Bridge "K" "cv" (by decide)

/-! ## State composition (`RuntimeBridge.composeState`, runtime-bridge.ts)

Providers carry flags `private`/`dynamic`/`alwaysRun` and an async `get`
returning `{ text?, values?, data? }` or throwing.  The model gives each
provider a fixed outcome (`result = none` models a throw — caught and
logged — or a `null` return: both contribute nothing and do not abort
composition).  `uid` models JS object identity, which is what
`Array.prototype.includes` compares in
`!baseList.includes(p)`. -/

/-- A provider `get` outcome `{ text?, values?, data? }`. -/
structure ProviderResult where
  text : Option String
  values : List (String × String)
  data : List (String × String)
deriving DecidableEq, Repr

/-- A registered provider. `priv` is the source's `private` flag. -/
structure Provider where
  uid : Nat
  name : String
  priv : Bool
  dynamic : Bool
  alwaysRun : Bool
  result : Option ProviderResult
deriving DecidableEq, Repr

/-- A composed `State`: flat `values`, structured `data`, narrative `text`. -/
structure State where
  values : List (String × String)
  data : List (String × String)
  text : String
deriving DecidableEq, Repr

/-- Everything one `composeState` call produces: the returned `State`, the
providers invoked (in invocation order), and the resulting `stateCache`. -/
structure ComposeOutcome where
  state : State
  invoked : List Provider
  cache : List (String × State)
deriving DecidableEq, Repr

namespace RuntimeBridge

/-- The candidate base list: providers whose name is in the include-list when
one is given (JS: `includeList ?` — note an empty array is truthy), else
every provider that is neither private nor dynamic. -/
def baseList (providers : List Provider) (includeList : Option (List String)) :
    List Provider :=
  match includeList with
  | some names => providers.filter (fun p => names.contains p.name)
  | none => providers.filter (fun p => !p.priv && !p.dynamic)

/-- The always-run additions: `alwaysRun && !private` providers not already
in the base list. -/
def alwaysRunExtras (providers : List Provider) (base : List Provider) :
    List Provider :=
  providers.filter (fun p => p.alwaysRun && !p.priv && !base.contains p)

/-- The full invocation list `[...baseList, ...alwaysRun]`, base first. -/
def selectProviders (providers : List Provider) (includeList : Option (List String)) :
    List Provider :=
  baseList providers includeList ++
    alwaysRunExtras providers (baseList providers includeList)

/-- `Object.assign(target, updates)`: shallow merge, later writers overwrite
earlier keys.  (An absent `result.values`/`result.data` is modelled as `[]`,
which merges as a no-op, exactly like the skipped `Object.assign`.) -/
def assignA (target updates : List (String × String)) : List (String × String) :=
  updates.foldl (fun acc kv => setA acc kv.1 kv.2) target

/-- The provider loop: sequentially accumulate `textParts` (a truthy
`result.text`, i.e. a nonempty string, is appended), `values` and `data`. -/
def runProviders (toRun : List Provider) (values0 : List (String × String)) : State :=
  let fin := toRun.foldl
    (fun (acc : List String × List (String × String) × List (String × String)) p =>
      match p.result with
      | none => acc
      | some r =>
        let textParts := match r.text with
          | some t => if t = "" then acc.1 else acc.1 ++ [t]
          | none => acc.1
        (textParts, assignA acc.2.1 r.values, assignA acc.2.2 r.data))
    ([], values0, [])
  { values := fin.2.1, data := fin.2.2, text := String.intercalate "\n" fin.1 }

/-- The initial `values`: agent display name (`?? "Eliza"`), joined action
names, joined provider names — present regardless of which providers run. -/
def initialValues (agentName : Option String) (actionNames : List String)
    (providers : List Provider) : List (String × String) :=
  [("agentName", agentName.getD "Eliza"),
   ("actionNames", String.intercalate ", " actionNames),
   ("providers", String.intercalate ", " (providers.map (fun p => p.name)))]

/-- `composeState(message, includeList?, _onlyInclude?, skipCache?)`.
`messageId` is `message.id`; the `onlyInclude` parameter is accepted (source
signature) but never read (source `_onlyInclude`). -/
def composeState (providers : List Provider) (actionNames : List String)
    (agentName : Option String) (cache : List (String × State))
    (messageId : Option String) (includeList : Option (List String))
    (_onlyInclude : Option Bool) (skipCache : Bool) : ComposeOutcome :=
  match (if skipCache then none else messageId.bind (fun i => lookupA cache i)) with
  | some cached => { state := cached, invoked := [], cache := cache }
  | none =>
    let toRun := selectProviders providers includeList
    let st := runProviders toRun (initialValues agentName actionNames providers)
    { state := st
      invoked := toRun
      cache := match messageId with
        | some i => setA cache i st
        | none => cache }

end RuntimeBridge

/-- C10: the third (`onlyInclude`) parameter of `composeState` is ignored
entirely — for every message, include-list, skip-cache flag, provider set and
prior cache, two calls that differ only in `onlyInclude` invoke the same
providers in the same order and produce the same `State` and cache. -/
theorem C10_onlyInclude_ignored (providers : List Provider)
    (actionNames : List String) (agentName : Option String)
    (cache : List (String × State)) (messageId : Option String)
    (includeList : Option (List String)) (onlyInclude₁ onlyInclude₂ : Option Bool)
    (skipCache : Bool) :
    RuntimeBridge.composeState providers actionNames agentName cache messageId
        includeList onlyInclude₁ skipCache
      = RuntimeBridge.composeState providers actionNames agentName cache messageId
        includeList onlyInclude₂ skipCache := rfl

/-! ## Deliberately-unsupported shim methods (runtime-bridge.ts + types.ts)

`NotImplementedError` (types.ts) carries `name = "NotImplementedError"` and
message `` `RuntimeBridge.${methodName}() is not implemented.` ``.  Each
unsupported method exists on the shim and unconditionally throws it; a
method that always throws is modelled as a constant `Except.error`. -/

/-- `class NotImplementedError extends Error` (types.ts). -/
structure NotImplementedError where
  methodName : String
deriving DecidableEq, Repr

/-- `this.name = "NotImplementedError"`. -/
def NotImplementedError.errName (_ : NotImplementedError) : String :=
  "NotImplementedError"

/-- `super(\`RuntimeBridge.${methodName}() is not implemented.\`)`. -/
def NotImplementedError.message (e : NotImplementedError) : String :=
  "RuntimeBridge." ++ e.methodName ++ "() is not implemented."

namespace RuntimeBridge

/-- `useModel(): Promise<string>` — always throws. -/
def useModel : Except NotImplementedError String :=
  .error ⟨"useModel"⟩

/-- `generateText(): Promise<{text; finishReason}>` — always throws. -/
def generateText : Except NotImplementedError (String × String) :=
  .error ⟨"generateText"⟩

/-- `dynamicPromptExecFromState(): Promise<Record<string, unknown> | null>` —
always throws. -/
def dynamicPromptExecFromState :
    Except NotImplementedError (Option (List (String × String))) :=
  .error ⟨"dynamicPromptExecFromState"⟩

/-- `processActions(): Promise<void>` — always throws. -/
def processActions : Except NotImplementedError Unit :=
  .error ⟨"processActions"⟩

/-- `evaluate(): Promise<null>` — always throws. -/
def evaluate : Except NotImplementedError Unit :=
  .error ⟨"evaluate"⟩

end RuntimeBridge

/-- C9: each deliberately-unsupported shim method (all of which exist on the
shim, here as total definitions) never returns normally: it yields exactly a
`NotImplementedError` naming the method called, and the five method names are
pairwise distinct, so the error identifies which method was invoked. -/
theorem C9_not_implemented :
    RuntimeBridge.useModel = .error ⟨"useModel"⟩ ∧
    RuntimeBridge.generateText = .error ⟨"generateText"⟩ ∧
    RuntimeBridge.dynamicPromptExecFromState = .error ⟨"dynamicPromptExecFromState"⟩ ∧
    RuntimeBridge.processActions = .error ⟨"processActions"⟩ ∧
    RuntimeBridge.evaluate = .error ⟨"evaluate"⟩ ∧
    (∀ x, RuntimeBridge.useModel ≠ .ok x) ∧
    (∀ x, RuntimeBridge.generateText ≠ .ok x) ∧
    (∀ x, RuntimeBridge.dynamicPromptExecFromState ≠ .ok x) ∧
    (∀ x, RuntimeBridge.processActions ≠ .ok x) ∧
    (∀ x, RuntimeBridge.evaluate ≠ .ok x) ∧
    List.Nodup ["useModel", "generateText", "dynamicPromptExecFromState",
      "processActions", "evaluate"] :=
  ⟨rfl, rfl, rfl, rfl, rfl,
   fun _ h => Except.noConfusion h, fun _ h => Except.noConfusion h,
   fun _ h => Except.noConfusion h, fun _ h => Except.noConfusion h,
   fun _ h => Except.noConfusion h, by decide⟩

/-! ### C3: provider set algebra -/

/-- Membership in the composed invocation list, via the base/extras split. -/
theorem mem_selectProviders (providers : List Provider)
    (includeList : Option (List String)) (p : Provider) :
    p ∈ RuntimeBridge.selectProviders providers includeList ↔
      p ∈ RuntimeBridge.baseList providers includeList ∨
        (p ∈ providers ∧ p.alwaysRun = true ∧ p.priv = false ∧
          p ∉ RuntimeBridge.baseList providers includeList) := by
  simp only [RuntimeBridge.selectProviders, List.mem_append]
  constructor
  · rintro (h | h)
    · exact Or.inl h
    · simp only [RuntimeBridge.alwaysRunExtras, List.mem_filter] at h
      obtain ⟨hp, hcond⟩ := h
      simp only [Bool.and_eq_true, Bool.not_eq_true'] at hcond
      refine Or.inr ⟨hp, hcond.1.1, hcond.1.2, ?_⟩
      intro hmem
      have hfalse := hcond.2
      simp [hmem] at hfalse
  · rintro (h | ⟨hp, ha, hpriv, hb⟩)
    · exact Or.inl h
    · refine Or.inr ?_
      simp only [RuntimeBridge.alwaysRunExtras, List.mem_filter]
      exact ⟨hp, by simp [ha, hpriv, hb]⟩

/-- A duplicate-free provider registry yields a duplicate-free invocation
list: no provider is invoked twice in one `composeState` call. -/
theorem selectProviders_nodup (providers : List Provider)
    (includeList : Option (List String)) (hnd : providers.Nodup) :
    (RuntimeBridge.selectProviders providers includeList).Nodup := by
  refine List.Nodup.append ?_ ?_ ?_
  · cases includeList <;> exact hnd.filter _
  · exact hnd.filter _
  · rw [List.disjoint_left]
    intro p hp hq
    have : p ∉ RuntimeBridge.baseList providers includeList := by
      simp only [RuntimeBridge.alwaysRunExtras, List.mem_filter,
        Bool.and_eq_true, Bool.not_eq_true'] at hq
      intro hmem
      have hfalse := hq.2.2
      simp [hmem] at hfalse
    exact this hp

/-- C3 concrete providers from the spec scenario. -/
def P1 : Provider := ⟨1, "P1", false, false, false, none⟩

/-- C3 concrete provider P2 (dynamic, alwaysRun). -/
def P2 : Provider := ⟨2, "P2", false, true, true, none⟩

/-- C3 concrete provider P3 (dynamic, not alwaysRun). -/
def P3 : Provider := ⟨3, "P3", false, true, false, none⟩

/-- C3: provider selection algebra of `composeState`.  With no include-list
exactly the non-private non-dynamic providers run plus every non-private
`alwaysRun` provider not already among them; with an include-list exactly the
named providers run plus every non-private `alwaysRun` provider not already
among them; the base providers come first and (for a duplicate-free registry)
no provider runs twice; and on the spec's concrete scenario
P1(¬private,¬dynamic), P2(dynamic,alwaysRun), P3(dynamic,¬alwaysRun):
no include-list runs exactly [P1, P2], include-list ["P3"] runs exactly
[P3, P2]. -/
theorem C3_provider_set_algebra (providers : List Provider)
    (includeList : Option (List String)) (hnd : providers.Nodup) :
    (RuntimeBridge.selectProviders providers includeList
      = RuntimeBridge.baseList providers includeList
        ++ RuntimeBridge.alwaysRunExtras providers
            (RuntimeBridge.baseList providers includeList)) ∧
    (∀ p, p ∈ RuntimeBridge.selectProviders providers none ↔
      p ∈ providers ∧
        ((p.priv = false ∧ p.dynamic = false) ∨
          (p.alwaysRun = true ∧ p.priv = false))) ∧
    (∀ names p, p ∈ RuntimeBridge.selectProviders providers (some names) ↔
      p ∈ providers ∧
        (p.name ∈ names ∨ (p.alwaysRun = true ∧ p.priv = false))) ∧
    (RuntimeBridge.selectProviders providers includeList).Nodup ∧
    RuntimeBridge.selectProviders [P1, P2, P3] none = [P1, P2] ∧
    RuntimeBridge.selectProviders [P1, P2, P3] (some ["P3"]) = [P3, P2] := by
  refine ⟨rfl, ?_, ?_, ?_, by decide, by decide⟩
  · intro p
    rw [mem_selectProviders]
    have hbase : p ∈ RuntimeBridge.baseList providers none ↔
        p ∈ providers ∧ p.priv = false ∧ p.dynamic = false := by
      simp [RuntimeBridge.baseList, List.mem_filter, and_assoc]
    rw [hbase]
    constructor
    · rintro (⟨hp, h1, h2⟩ | ⟨hp, ha, hpriv, _⟩)
      · exact ⟨hp, Or.inl ⟨h1, h2⟩⟩
      · exact ⟨hp, Or.inr ⟨ha, hpriv⟩⟩
    · rintro ⟨hp, (⟨h1, h2⟩ | ⟨ha, hpriv⟩)⟩
      · exact Or.inl ⟨hp, h1, h2⟩
      · by_cases hb : p ∈ providers ∧ p.priv = false ∧ p.dynamic = false
        · exact Or.inl hb
        · exact Or.inr ⟨hp, ha, hpriv, hb⟩
  · intro names p
    rw [mem_selectProviders]
    have hbase : p ∈ RuntimeBridge.baseList providers (some names) ↔
        p ∈ providers ∧ p.name ∈ names := by
      simp [RuntimeBridge.baseList, List.mem_filter]
    rw [hbase]
    constructor
    · rintro (⟨hp, h1⟩ | ⟨hp, ha, hpriv, _⟩)
      · exact ⟨hp, Or.inl h1⟩
      · exact ⟨hp, Or.inr ⟨ha, hpriv⟩⟩
    · rintro ⟨hp, (h1 | ⟨ha, hpriv⟩)⟩
      · exact Or.inl ⟨hp, h1⟩
      · by_cases hb : p ∈ providers ∧ p.name ∈ names
        · exact Or.inl hb
        · exact Or.inr ⟨hp, ha, hpriv, hb⟩
  · exact selectProviders_nodup providers includeList hnd

/-- C3 witness: `C3_provider_set_algebra` at the spec's concrete scenario. -/
theorem C3_provider_set_algebra_witness :
    RuntimeBridge.selectProviders [P1, P2, P3] none = [P1, P2] ∧
    RuntimeBridge.selectProviders [P1, P2, P3] (some ["P3"]) = [P3, P2] :=
  ⟨(C3_provider_set_algebra [P1, P2, P3] none (by decide)).2.2.2.2.1,
   (C3_provider_set_algebra [P1, P2, P3] (some ["P3"]) (by decide)).2.2.2.2.2⟩

/-! ### C4: composeState caching -/

/-- C4: per-message-id state caching of `composeState`.  Starting from a
cache with no entry for the id: the first call invokes exactly the selected
providers; a second call for the same id invokes zero providers, returns the
cached `State` verbatim, and leaves the cache unchanged (so each selected
provider is invoked exactly once across the two calls); a call with
`skipCache = true` invokes the providers whatever the cache contains; and a
call whose message has no id neither reads the cache (its state and
invocations are the same for any two caches) nor writes it. -/
theorem C4_compose_state_caching (providers : List Provider)
    (actionNames : List String) (agentName : Option String)
    (cache : List (String × State)) (mid : String)
    (includeList : Option (List String)) (oi : Option Bool)
    (hmiss : lookupA cache mid = none) :
    (RuntimeBridge.composeState providers actionNames agentName cache
        (some mid) includeList oi false).invoked
      = RuntimeBridge.selectProviders providers includeList ∧
    (RuntimeBridge.composeState providers actionNames agentName
        (RuntimeBridge.composeState providers actionNames agentName cache
          (some mid) includeList oi false).cache
        (some mid) includeList oi false).invoked = [] ∧
    (RuntimeBridge.composeState providers actionNames agentName
        (RuntimeBridge.composeState providers actionNames agentName cache
          (some mid) includeList oi false).cache
        (some mid) includeList oi false).state
      = (RuntimeBridge.composeState providers actionNames agentName cache
          (some mid) includeList oi false).state ∧
    (RuntimeBridge.composeState providers actionNames agentName
        (RuntimeBridge.composeState providers actionNames agentName cache
          (some mid) includeList oi false).cache
        (some mid) includeList oi false).cache
      = (RuntimeBridge.composeState providers actionNames agentName cache
          (some mid) includeList oi false).cache ∧
    (providers.Nodup → ∀ p ∈ RuntimeBridge.selectProviders providers includeList,
      List.count p
        ((RuntimeBridge.composeState providers actionNames agentName cache
            (some mid) includeList oi false).invoked ++
         (RuntimeBridge.composeState providers actionNames agentName
            (RuntimeBridge.composeState providers actionNames agentName cache
              (some mid) includeList oi false).cache
            (some mid) includeList oi false).invoked) = 1) ∧
    (∀ cache' : List (String × State),
      (RuntimeBridge.composeState providers actionNames agentName cache'
          (some mid) includeList oi true).invoked
        = RuntimeBridge.selectProviders providers includeList) ∧
    (∀ (c₁ c₂ : List (String × State)) (sc : Bool),
      (RuntimeBridge.composeState providers actionNames agentName c₁
          none includeList oi sc).state
        = (RuntimeBridge.composeState providers actionNames agentName c₂
            none includeList oi sc).state ∧
      (RuntimeBridge.composeState providers actionNames agentName c₁
          none includeList oi sc).invoked
        = (RuntimeBridge.composeState providers actionNames agentName c₂
            none includeList oi sc).invoked ∧
      (RuntimeBridge.composeState providers actionNames agentName c₁
          none includeList oi sc).cache = c₁) := by
  have h1 : RuntimeBridge.composeState providers actionNames agentName cache
      (some mid) includeList oi false
      = { state := RuntimeBridge.runProviders
            (RuntimeBridge.selectProviders providers includeList)
            (RuntimeBridge.initialValues agentName actionNames providers)
          invoked := RuntimeBridge.selectProviders providers includeList
          cache := setA cache mid
            (RuntimeBridge.runProviders
              (RuntimeBridge.selectProviders providers includeList)
              (RuntimeBridge.initialValues agentName actionNames providers)) } := by
    simp [RuntimeBridge.composeState, hmiss]
  have h2 : RuntimeBridge.composeState providers actionNames agentName
      (RuntimeBridge.composeState providers actionNames agentName cache
        (some mid) includeList oi false).cache
      (some mid) includeList oi false
      = { state := RuntimeBridge.runProviders
            (RuntimeBridge.selectProviders providers includeList)
            (RuntimeBridge.initialValues agentName actionNames providers)
          invoked := []
          cache := (RuntimeBridge.composeState providers actionNames agentName
            cache (some mid) includeList oi false).cache } := by
    rw [h1]
    simp [RuntimeBridge.composeState, lookupA_setA_self]
  refine ⟨by rw [h1], by rw [h2], by rw [h2, h1], by rw [h2], ?_, ?_, ?_⟩
  · intro hnd p hp
    rw [h2, h1]
    simp only [List.count_append]
    have : List.count p (RuntimeBridge.selectProviders providers includeList) = 1 :=
      List.count_eq_one_of_mem (selectProviders_nodup providers includeList hnd) hp
    simpa using this
  · intro cache'
    simp [RuntimeBridge.composeState]
  · intro c₁ c₂ sc
    cases sc <;> simp [RuntimeBridge.composeState]

/-- C4 witness: `C4_compose_state_caching` at a concrete provider registry,
message id and empty cache. -/
theorem C4_compose_state_caching_witness :
    (RuntimeBridge.composeState [P1, P2, P3] ["act"] (some "Agent") []
        (some "m1") none none false).invoked
      = RuntimeBridge.selectProviders [P1, P2, P3] none ∧
    (RuntimeBridge.composeState [P1, P2, P3] ["act"] (some "Agent")
        (RuntimeBridge.composeState [P1, P2, P3] ["act"] (some "Agent") []
          (some "m1") none none false).cache
        (some "m1") none none false).invoked = [] :=
  ⟨(C4_compose_state_caching [P1, P2, P3] ["act"] (some "Agent") [] "m1"
      none none (by decide)).1,
   (C4_compose_state_caching [P1, P2, P3] ["act"] (some "Agent") [] "m1"
      none none (by decide)).2.1⟩

/-! ## Secrets redaction (`RuntimeBridge.redactSecrets`, runtime-bridge.ts)

`redactSecrets(text)` iterates `Object.values(this.settings)` in insertion
order and, for every string value of length > 4, performs
`r = r.replaceAll(v, "***REDACTED***")` — a global, leftmost,
non-overlapping replacement.  Texts are modelled as `List Char`;
`replaceAll` is modelled with a structural fuel argument (`fuel ≥ length`
suffices, and `replaceAll` always passes the text's length). -/

/-- JS strings at character granularity. -/
abbrev Text := List Char

/-- The fixed redaction marker `"***REDACTED***"`. -/
def REDACTION_MARKER : Text := "***REDACTED***".toList

/-- One `String.prototype.replaceAll` pass: scan left to right; at a match
of `pat` emit `rep` and continue after the matched occurrence, else keep one
character and continue.  `fuel` only bounds recursion depth. -/
def replaceAllFuel (pat rep : Text) : Nat → Text → Text
  | _, [] => []
  | 0, s => s
  | fuel + 1, c :: rest =>
    if pat.isPrefixOf (c :: rest) then
      rep ++ replaceAllFuel pat rep fuel (rest.drop (pat.length - 1))
    else c :: replaceAllFuel pat rep fuel rest

/-- `text.replaceAll(pat, rep)` for a nonempty pattern (the only way
`redactSecrets` calls it, since secrets there have length > 4). -/
def replaceAll (pat rep s : Text) : Text :=
  if pat.isEmpty then s else replaceAllFuel pat rep s.length s

namespace RuntimeBridge

/-- `redactSecrets(text)`: fold the replacement passes over the setting
values in order; only string values of length > 4 trigger a pass. -/
def redactSecrets (settings : SettingsMap) (text : Text) : Text :=
  settings.foldl
    (fun r kv =>
      match kv.2 with
      | SettingValue.str v => if 4 < v.length then replaceAll v.toList REDACTION_MARKER r else r
      | SettingValue.bool _ => r)
    text

end RuntimeBridge

/-- The string setting values of length > 4, in settings order (the values
`redactSecrets` actually redacts, per the spec's words). -/
def longStringValues (settings : SettingsMap) : List Text :=
  settings.foldr
    (fun kv acc =>
      match kv.2 with
      | SettingValue.str v => if 4 < v.length then v.toList :: acc else acc
      | SettingValue.bool _ => acc)
    []

/-- Spec-side description of redaction: one global replace-all pass per long
string value, in order. -/
def redactLongOnly (vs : List Text) (text : Text) : Text :=
  vs.foldl (fun r v => replaceAll v REDACTION_MARKER r) text

/-- A text without an occurrence of the (nonempty) pattern is unchanged by a
replace-all pass. -/
theorem replaceAllFuel_of_not_infix (pat rep : Text) (s : Text) (fuel : Nat)
    (h : ¬ pat <:+: s) : replaceAllFuel pat rep fuel s = s := by
  induction s generalizing fuel with
  | nil => cases fuel <;> rfl
  | cons c rest ih =>
    cases fuel with
    | zero => rfl
    | succ f =>
      have hpre : ¬ pat.isPrefixOf (c :: rest) = true := by
        intro hp
        exact h (List.IsPrefix.isInfix (List.isPrefixOf_iff_prefix.mp hp))
      have hrest : ¬ pat <:+: rest := by
        intro hr
        exact h (List.infix_cons_iff.mpr (Or.inr hr))
      simp [replaceAllFuel, hpre, ih f hrest]

/-- If the (nonempty) pattern occurs in the text, a replace-all pass plants
the replacement in the output. -/
theorem marker_infix_replaceAllFuel (pat rep : Text) (s : Text) (fuel : Nat)
    (hpat : pat ≠ []) (hfuel : s.length ≤ fuel) (h : pat <:+: s) :
    rep <:+: replaceAllFuel pat rep fuel s := by
  induction s generalizing fuel with
  | nil => exact absurd (List.infix_nil.mp h) hpat
  | cons c rest ih =>
    cases fuel with
    | zero => simp at hfuel
    | succ f =>
      by_cases hpre : pat.isPrefixOf (c :: rest) = true
      · refine ⟨[], replaceAllFuel pat rep f (rest.drop (pat.length - 1)), ?_⟩
        simp [replaceAllFuel, hpre]
      · have hrest : pat <:+: rest := by
          rcases List.infix_cons_iff.mp h with hp | hr
          · exact absurd (List.isPrefixOf_iff_prefix.mpr hp) hpre
          · exact hr
        have hf : rest.length ≤ f := by simpa using hfuel
        obtain ⟨u, t, hu⟩ := ih f hf hrest
        exact ⟨c :: u, t, by simp [replaceAllFuel, hpre, ← hu]⟩

/-- `redactSecrets` coincides with folding one replace-all pass per long
string value. -/
theorem redactSecrets_eq_redactLongOnly (settings : SettingsMap) (text : Text) :
    RuntimeBridge.redactSecrets settings text
      = redactLongOnly (longStringValues settings) text := by
  induction settings generalizing text with
  | nil => rfl
  | cons kv rest ih =>
    obtain ⟨k, v⟩ := kv
    cases v with
    | str s =>
      by_cases h : 4 < s.length
      · simp [RuntimeBridge.redactSecrets, longStringValues, redactLongOnly, h] at ih ⊢
        exact ih _
      · simp [RuntimeBridge.redactSecrets, longStringValues, redactLongOnly, h] at ih ⊢
        exact ih _
    | bool b =>
      simp [RuntimeBridge.redactSecrets, longStringValues, redactLongOnly] at ih ⊢
      exact ih _

/-- C8 counterexample: with settings `LONG = "abcdef"` (length 6) and
`SHORT = "bcde"` (length 4) and input text `"abcdef"`, the short setting's
occurrence does NOT remain in the output unchanged: replacing the long
secret destroys it.  This refutes the claim's universally-quantified
"never alters occurrences of settings whose string length is 4 or less". -/
theorem C8_counterexample :
    RuntimeBridge.redactSecrets
        [("LONG", SettingValue.str "abcdef"), ("SHORT", SettingValue.str "bcde")]
        ("abcdef".toList)
      = REDACTION_MARKER ∧
    ("bcde".toList) <:+: ("abcdef".toList) ∧
    ¬ (("bcde".toList) <:+:
        RuntimeBridge.redactSecrets
          [("LONG", SettingValue.str "abcdef"), ("SHORT", SettingValue.str "bcde")]
          ("abcdef".toList)) := by
  refine ⟨by decide, by decide, by decide⟩

/-- C8 (amended): `redactSecrets` applies, in settings order, one global
leftmost non-overlapping replace-all pass (with the fixed marker) per
string-valued setting of length > 4, and applies no replacement pass for
settings of string length ≤ 4 or non-string values — so a text whose string
settings are all of length ≤ 4 is returned unchanged.  For a single long
secret: every text containing the secret yields the marker in the output,
and a text not containing it is returned unchanged.  (Occurrences of
settings of length ≤ 4 are not guaranteed to survive: they are destroyed
when they overlap a replaced long occurrence.) -/
theorem C8_redaction_threshold (settings : SettingsMap) (text : Text)
    (hshort : ∀ kv ∈ settings, ∀ v, kv.2 = SettingValue.str v → v.length ≤ 4) :
    RuntimeBridge.redactSecrets settings text
        = redactLongOnly (longStringValues settings) text ∧
    RuntimeBridge.redactSecrets settings text = text ∧
    (∀ (k : String) (v : String), 4 < v.length → v.toList <:+: text →
      REDACTION_MARKER <:+:
        RuntimeBridge.redactSecrets [(k, SettingValue.str v)] text) ∧
    (∀ (k : String) (v : String), 4 < v.length → ¬ (v.toList <:+: text) →
      RuntimeBridge.redactSecrets [(k, SettingValue.str v)] text = text) := by
  refine ⟨redactSecrets_eq_redactLongOnly settings text, ?_, ?_, ?_⟩
  · have hempty : longStringValues settings = [] := by
      induction settings with
      | nil => rfl
      | cons kv rest ih =>
        obtain ⟨k, v⟩ := kv
        cases v with
        | str s =>
          have hs : s.length ≤ 4 := hshort (k, SettingValue.str s) (by simp) s rfl
          have hns : ¬ 4 < s.length := by omega
          simp only [longStringValues, List.foldr_cons, hns, if_false]
          exact ih (fun kv hkv v hv => hshort kv (List.mem_cons_of_mem _ hkv) v hv)
        | bool b =>
          simp only [longStringValues, List.foldr_cons]
          exact ih (fun kv hkv v hv => hshort kv (List.mem_cons_of_mem _ hkv) v hv)
    rw [redactSecrets_eq_redactLongOnly, hempty]
    rfl
  · intro k v hlen hocc
    have hne : v.data ≠ [] := by
      intro hnil
      have hv : v.length = 0 := by
        have hd : v.length = v.data.length := rfl
        rw [hd, hnil]
        rfl
      omega
    have heq : RuntimeBridge.redactSecrets [(k, SettingValue.str v)] text
        = replaceAllFuel v.toList REDACTION_MARKER text.length text := by
      simp [RuntimeBridge.redactSecrets, hlen, replaceAll, String.toList, hne]
    rw [heq]
    exact marker_infix_replaceAllFuel v.toList REDACTION_MARKER text text.length
      hne (Nat.le_refl _) hocc
  · intro k v hlen hocc
    have hne : v.data ≠ [] := by
      intro hnil
      have hv : v.length = 0 := by
        have hd : v.length = v.data.length := rfl
        rw [hd, hnil]
        rfl
      omega
    have heq : RuntimeBridge.redactSecrets [(k, SettingValue.str v)] text
        = replaceAllFuel v.toList REDACTION_MARKER text.length text := by
      simp [RuntimeBridge.redactSecrets, hlen, replaceAll, String.toList, hne]
    rw [heq]
    exact replaceAllFuel_of_not_infix v.toList REDACTION_MARKER text text.length hocc

/-- C8 witness: `C8_redaction_threshold` with the short setting `"pw"` and
text `"my pw is pw"` (hypothesis: all string settings are length ≤ 4), whose
conclusions are then instantiated at the long secret `"secret99"`. -/
theorem C8_redaction_threshold_witness :
    RuntimeBridge.redactSecrets [("P", SettingValue.str "pw")] ("my pw is pw".toList)
        = "my pw is pw".toList ∧
    REDACTION_MARKER <:+:
      RuntimeBridge.redactSecrets [("S", SettingValue.str "secret99")]
        ("has secret99 inside".toList) :=
  ⟨(C8_redaction_threshold [("P", SettingValue.str "pw")] ("my pw is pw".toList)
      (by
        intro kv hkv v hv
        simp at hkv
        subst hkv
        simp only [SettingValue.str.injEq] at hv
        subst hv
        decide)).2.1,
   (C8_redaction_threshold [("P", SettingValue.str "pw")] ("has secret99 inside".toList)
      (by
        intro kv hkv v hv
        simp at hkv
        subst hkv
        simp only [SettingValue.str.injEq] at hv
        subst hv
        decide)).2.2.1 "S" "secret99" (by decide) (by decide)⟩

/-! ## Component storage (`InMemoryStore`, in-memory-store.ts)

Components are stored twice: `components`, a `Map` keyed by the composite
string `` `${entityId}:${type}:${worldId ?? ""}:${sourceEntityId ?? ""}` ``,
and `componentsByEntity`, a `Map` from entityId to a list.
`createComponent` sets the flat map (overwriting any entry at that key) and
unconditionally pushes onto the per-entity list; `updateComponent` sets the
flat map and replaces the per-entity entry with the same id (or pushes);
`deleteComponent` removes the first flat-map entry with the given component
id and splices the per-entity entry with that id.

`Component.id` is modelled as always present: the source's
`component.id ?? randomUUID()` merely fills an absent id with a fresh one
before any use. -/

/-- A component row (the fields the store reads). -/
structure Component where
  id : String
  entityId : String
  type : String
  worldId : Option String
  sourceEntityId : Option String
deriving DecidableEq, Repr

/-- `componentKey(entityId, type, worldId, sourceEntityId)`. -/
def componentKey (entityId type : String)
    (worldId sourceEntityId : Option String) : String :=
  entityId ++ ":" ++ type ++ ":" ++ worldId.getD "" ++ ":" ++ sourceEntityId.getD ""

/-- The composite key of a component. -/
def Component.key (c : Component) : String :=
  componentKey c.entityId c.type c.worldId c.sourceEntityId

/-- The component-related state of an `InMemoryStore`. -/
structure ComponentStore where
  components : List (String × Component)
  componentsByEntity : List (String × List Component)
deriving DecidableEq, Repr

/-- A fresh store: every collection empty. -/
def emptyComponents : ComponentStore := ⟨[], []⟩

/-- Replace the first element with the same `id`, else append
(`findIndex`/`existing[idx] = component`/`push` in `updateComponent`). -/
def replaceOrAppendById : List Component → Component → List Component
  | [], c => [c]
  | x :: rest, c => if x.id = c.id then c :: rest else x :: replaceOrAppendById rest c

/-- Remove the first element with the given `id`
(`findIndex`/`splice(idx, 1)` in `deleteComponent`). -/
def removeFirstById : List Component → String → List Component
  | [], _ => []
  | x :: rest, cid => if x.id = cid then rest else x :: removeFirstById rest cid

namespace InMemoryStore

/-- `getComponent(entityId, type, worldId?, sourceEntityId?)`: flat-map point
lookup by composite key. -/
def getComponent (s : ComponentStore) (entityId type : String)
    (worldId sourceEntityId : Option String) : Option Component :=
  lookupA s.components (componentKey entityId type worldId sourceEntityId)

/-- `getComponents(entityId)`: the per-entity list (or `[]`). -/
def getComponents (s : ComponentStore) (entityId : String) : List Component :=
  (lookupA s.componentsByEntity entityId).getD []

/-- `createComponent(component)`: set the flat map at the composite key and
push onto the per-entity list. -/
def createComponent (s : ComponentStore) (c : Component) : ComponentStore :=
  { components := setA s.components c.key c
    componentsByEntity := setA s.componentsByEntity c.entityId
      ((lookupA s.componentsByEntity c.entityId).getD [] ++ [c]) }

/-- `updateComponent(component)`: set the flat map at the composite key and
replace-or-push in the per-entity list (matched by `id`). -/
def updateComponent (s : ComponentStore) (c : Component) : ComponentStore :=
  { components := setA s.components c.key c
    componentsByEntity := setA s.componentsByEntity c.entityId
      (replaceOrAppendById ((lookupA s.componentsByEntity c.entityId).getD []) c) }

/-- `deleteComponent(componentId)`: find the first flat-map entry with this
component id, delete it, and splice the per-entity entry with this id. -/
def deleteComponent (s : ComponentStore) (cid : String) : ComponentStore :=
  match s.components.find? (fun kv => kv.2.id == cid) with
  | none => s
  | some kv =>
    { components := eraseA s.components kv.1
      componentsByEntity := setA s.componentsByEntity kv.2.entityId
        (removeFirstById ((lookupA s.componentsByEntity kv.2.entityId).getD []) cid) }

end InMemoryStore

/-- One component-store operation. -/
inductive CompOp where
  | create (c : Component)
  | update (c : Component)
  | delete (cid : String)
deriving DecidableEq, Repr

/-- Apply one operation. -/
def applyCompOp (s : ComponentStore) : CompOp → ComponentStore
  | .create c => InMemoryStore.createComponent s c
  | .update c => InMemoryStore.updateComponent s c
  | .delete cid => InMemoryStore.deleteComponent s cid

/-- Apply a sequence of operations. -/
def applyCompOps (s : ComponentStore) (ops : List CompOp) : ComponentStore :=
  ops.foldl applyCompOp s

/-- The component ids currently stored in the flat map. -/
def compIds (s : ComponentStore) : List String :=
  s.components.map (fun kv => kv.2.id)

/-- C2 counterexample components: two distinct components (ids "c1", "c2")
with the SAME composite key (entity "e1", type "T"). -/
def c1ex : Component := ⟨"c1", "e1", "T", none, none⟩

/-- Second C2 counterexample component, same composite key as `c1ex`. -/
def c2ex : Component := ⟨"c2", "e1", "T", none, none⟩

/-- Store after creating both counterexample components. -/
def c2exStore : ComponentStore :=
  applyCompOps emptyComponents [CompOp.create c1ex, CompOp.create c2ex]

/-- C2 counterexample: after the create/create sequence on the same
composite key, the per-entity list holds `[c1ex, c2ex]` — two components
with the same composite key — while the flat map holds only `c2ex`; `c1ex`
sits in the per-entity list but is reachable through no flat-map entry.
The claimed invariant fails on this operation sequence. -/
theorem C2_counterexample :
    InMemoryStore.getComponents c2exStore "e1" = [c1ex, c2ex] ∧
    c2exStore.components = [(Component.key c1ex, c2ex)] ∧
    c1ex ∈ InMemoryStore.getComponents c2exStore "e1" ∧
    (∀ kv ∈ c2exStore.components, kv.2 ≠ c1ex) ∧
    ¬ ((InMemoryStore.getComponents c2exStore "e1").map Component.key).Nodup := by
  refine ⟨by decide, by decide, by decide, by decide, by decide⟩

/-! ### C2: consistency invariant of the two component structures -/

theorem lookupA_eq_none_iff {β : Type} (m : List (String × β)) (k : String) :
    lookupA m k = none ↔ k ∉ m.map Prod.fst := by
  induction m with
  | nil => simp [lookupA]
  | cons kv rest ih =>
    obtain ⟨k1, v1⟩ := kv
    by_cases h : k1 = k
    · simp [lookupA, h]
    · simp [lookupA, h, ih, Ne.symm h]

theorem setA_of_not_mem {β : Type} (m : List (String × β)) (k : String) (v : β)
    (h : k ∉ m.map Prod.fst) : setA m k v = m ++ [(k, v)] := by
  induction m with
  | nil => rfl
  | cons kv rest ih =>
    obtain ⟨k1, v1⟩ := kv
    simp only [List.map_cons, List.mem_cons] at h
    push_neg at h
    simp [setA, Ne.symm h.1, ih h.2]

theorem lookupA_decomp {β : Type} (m : List (String × β)) (k : String) (v : β)
    (hnd : (m.map Prod.fst).Nodup) (h : lookupA m k = some v) :
    ∃ m₁ m₂, m = m₁ ++ (k, v) :: m₂ ∧ k ∉ m₁.map Prod.fst ∧ k ∉ m₂.map Prod.fst := by
  induction m with
  | nil => simp [lookupA] at h
  | cons kv rest ih =>
    obtain ⟨k1, v1⟩ := kv
    by_cases hk : k1 = k
    · subst hk
      simp [lookupA] at h
      subst h
      refine ⟨[], rest, rfl, by simp, ?_⟩
      simpa using (List.nodup_cons.mp hnd).1
    · simp only [lookupA, if_neg hk] at h
      obtain ⟨m₁, m₂, hm, h1, h2⟩ := ih (List.nodup_cons.mp hnd).2 h
      refine ⟨(k1, v1) :: m₁, m₂, by simp [hm], ?_, h2⟩
      simp only [List.map_cons, List.mem_cons, not_or]
      exact ⟨fun hh => hk hh.symm, h1⟩

theorem setA_append_notmem {β : Type} (m₁ m₂ : List (String × β)) (k : String)
    (v v' : β) (h : k ∉ m₁.map Prod.fst) :
    setA (m₁ ++ (k, v') :: m₂) k v = m₁ ++ (k, v) :: m₂ := by
  induction m₁ with
  | nil => simp [setA]
  | cons kv rest ih =>
    obtain ⟨k1, v1⟩ := kv
    simp only [List.map_cons, List.mem_cons] at h
    push_neg at h
    simp [setA, Ne.symm h.1, ih h.2]

theorem eraseA_append {β : Type} (a b : List (String × β)) (k : String) :
    eraseA (a ++ b) k = eraseA a k ++ eraseA b k := by
  induction a with
  | nil => rfl
  | cons kv rest ih =>
    obtain ⟨k1, v1⟩ := kv
    by_cases h : k1 = k <;> simp [eraseA, h, ih]

theorem eraseA_of_not_mem {β : Type} (m : List (String × β)) (k : String)
    (h : k ∉ m.map Prod.fst) : eraseA m k = m := by
  induction m with
  | nil => rfl
  | cons kv rest ih =>
    obtain ⟨k1, v1⟩ := kv
    simp only [List.map_cons, List.mem_cons] at h
    push_neg at h
    simp [eraseA, Ne.symm h.1, ih h.2]

theorem replaceOrAppendById_of_not_mem (l : List Component) (c : Component)
    (h : ∀ x ∈ l, x.id ≠ c.id) : replaceOrAppendById l c = l ++ [c] := by
  induction l with
  | nil => rfl
  | cons x rest ih =>
    simp only [List.mem_cons] at h
    have hx : x.id ≠ c.id := h x (Or.inl rfl)
    simp [replaceOrAppendById, hx, ih (fun y hy => h y (Or.inr hy))]

theorem replaceOrAppendById_decomp (l₁ l₂ : List Component) (c₀ c : Component)
    (h : ∀ x ∈ l₁, x.id ≠ c.id) (hc : c₀.id = c.id) :
    replaceOrAppendById (l₁ ++ c₀ :: l₂) c = l₁ ++ c :: l₂ := by
  induction l₁ with
  | nil => simp [replaceOrAppendById, hc]
  | cons x rest ih =>
    have hx : x.id ≠ c.id := h x (by simp)
    simp [replaceOrAppendById, hx, ih (fun y hy => h y (by simp [hy]))]

theorem removeFirstById_decomp (l₁ l₂ : List Component) (c₀ : Component)
    (cid : String) (h : ∀ x ∈ l₁, x.id ≠ cid) (hc : c₀.id = cid) :
    removeFirstById (l₁ ++ c₀ :: l₂) cid = l₁ ++ l₂ := by
  induction l₁ with
  | nil => simp [removeFirstById, hc]
  | cons x rest ih =>
    have hx : x.id ≠ cid := h x (by simp)
    simp [removeFirstById, hx, ih (fun y hy => h y (by simp [hy]))]

theorem findFirst_decomp {α : Type} (l : List α) (p : α → Bool) (x : α)
    (h : l.find? p = some x) :
    ∃ l₁ l₂, l = l₁ ++ x :: l₂ ∧ (∀ y ∈ l₁, p y = false) ∧ p x = true := by
  induction l with
  | nil => simp [List.find?] at h
  | cons a rest ih =>
    by_cases hp : p a = true
    · rw [List.find?_cons_of_pos _ hp] at h
      injection h with h
      subst h
      exact ⟨[], rest, rfl, by simp, hp⟩
    · rw [List.find?_cons_of_neg _ (by simpa using hp)] at h
      obtain ⟨l₁, l₂, hl, h1, h2⟩ := ih h
      refine ⟨a :: l₁, l₂, by simp [hl], ?_, h2⟩
      intro y hy
      rcases List.mem_cons.mp hy with rfl | hy'
      · simpa using hp
      · exact h1 y hy'

/-- The claimed invariant: for every entity, the per-entity list is exactly
the flat-map components with that `entityId`. -/
def Consistent (s : ComponentStore) : Prop :=
  ∀ e, InMemoryStore.getComponents s e
      = (s.components.map Prod.snd).filter (fun c => c.entityId == e)

/-- Strengthened induction invariant: every flat-map binding is stored under
its component's composite key, keys are duplicate-free, component ids are
duplicate-free, and the two structures are consistent. -/
def WFComponents (s : ComponentStore) : Prop :=
  (∀ kv ∈ s.components, kv.1 = Component.key kv.2) ∧
  (s.components.map Prod.fst).Nodup ∧
  (s.components.map (fun kv => kv.2.id)).Nodup ∧
  Consistent s

/-- Write discipline forced by the C2 counterexample: a create must target a
fresh composite key and a fresh id; an update must either do the same or
match the component currently stored at its composite key (same id, same
entity); deletes are unrestricted. -/
def compOpOk (s : ComponentStore) : CompOp → Prop
  | .create c => lookupA s.components c.key = none ∧ c.id ∉ compIds s
  | .update c =>
    match lookupA s.components c.key with
    | none => c.id ∉ compIds s
    | some c' => c'.id = c.id ∧ c'.entityId = c.entityId
  | .delete _ => True

/-- Every operation of the trace satisfies the discipline in the state where
it executes. -/
def OkTrace : ComponentStore → List CompOp → Prop
  | _, [] => True
  | s, op :: rest => compOpOk s op ∧ OkTrace (applyCompOp s op) rest

/-- Membership in the value projection gives membership of the id in
`compIds`. -/
theorem id_mem_compIds (s : ComponentStore) (x : Component)
    (hx : x ∈ s.components.map Prod.snd) : x.id ∈ compIds s := by
  obtain ⟨kv, hkv, rfl⟩ := List.mem_map.mp hx
  exact List.mem_map.mpr ⟨kv, hkv, rfl⟩

/-- The push case shared by `createComponent` and the fresh-key case of
`updateComponent`: a fresh key and fresh id preserve the invariant when the
per-entity list gains the component at its end. -/
theorem wf_push (s : ComponentStore) (c : Component) (newB : List Component)
    (hk : lookupA s.components c.key = none) (hid : c.id ∉ compIds s)
    (wf : WFComponents s)
    (hnewB : newB = InMemoryStore.getComponents s c.entityId ++ [c]) :
    WFComponents
      ⟨setA s.components c.key c,
       setA s.componentsByEntity c.entityId newB⟩ := by
  obtain ⟨hkeys, hnd, hids, hcons⟩ := wf
  have hknot : c.key ∉ s.components.map Prod.fst := (lookupA_eq_none_iff _ _).mp hk
  have hM : setA s.components c.key c = s.components ++ [(c.key, c)] :=
    setA_of_not_mem _ _ _ hknot
  refine ⟨?_, ?_, ?_, ?_⟩
  · intro kv hkv
    simp only [hM] at hkv
    rcases List.mem_append.mp hkv with h | h
    · exact hkeys kv h
    · simp at h
      subst h
      rfl
  · show ((setA s.components c.key c).map Prod.fst).Nodup
    rw [hM, List.map_append]
    refine List.Nodup.append hnd (by simp) ?_
    rw [List.disjoint_left]
    intro a ha hb
    simp at hb
    subst hb
    exact hknot ha
  · show ((setA s.components c.key c).map (fun kv => kv.2.id)).Nodup
    rw [hM, List.map_append]
    refine List.Nodup.append hids (by simp) ?_
    rw [List.disjoint_left]
    intro a ha hb
    simp at hb
    subst hb
    exact hid ha
  · intro e
    show (lookupA (setA s.componentsByEntity c.entityId newB) e).getD []
        = ((setA s.components c.key c).map Prod.snd).filter (fun x => x.entityId == e)
    rw [hM, List.map_append, List.filter_append]
    by_cases he : c.entityId = e
    · subst he
      rw [lookupA_setA_self]
      have hold := hcons c.entityId
      simp only [InMemoryStore.getComponents] at hold
      simp [hnewB, hold]
      exact hold
    · rw [lookupA_setA_ne _ _ _ _ (fun hh => he hh.symm)]
      have hold := hcons e
      simp only [InMemoryStore.getComponents] at hold
      rw [hold]
      have hcee : (c.entityId == e) = false := by
        simp only [beq_eq_false_iff_ne, ne_eq]
        exact he
      simp [List.filter, hcee]

/-- The write discipline preserves the invariant across one operation. -/
theorem applyCompOp_wf (s : ComponentStore) (op : CompOp)
    (wf : WFComponents s) (hok : compOpOk s op) :
    WFComponents (applyCompOp s op) := by
  match op with
  | .create c =>
    obtain ⟨hk, hid⟩ := hok
    exact wf_push s c _ hk hid wf rfl
  | .update c =>
    cases hlk : lookupA s.components c.key with
    | none =>
      have hid : c.id ∉ compIds s := by
        have h := hok
        simp only [compOpOk, hlk] at h
        exact h
      have hrep : replaceOrAppendById
            ((lookupA s.componentsByEntity c.entityId).getD []) c
          = (lookupA s.componentsByEntity c.entityId).getD [] ++ [c] := by
        apply replaceOrAppendById_of_not_mem
        intro x hx hxid
        have hold := wf.2.2.2 c.entityId
        simp only [InMemoryStore.getComponents] at hold
        rw [hold] at hx
        exact hid (hxid ▸ id_mem_compIds s x (List.mem_filter.mp hx).1)
      exact wf_push s c _ hlk hid wf hrep
    | some c' =>
      have hok' := hok
      simp only [compOpOk, hlk] at hok'
      obtain ⟨hcid, hce⟩ := hok'
      obtain ⟨hkeys, hnd, hids, hcons⟩ := wf
      obtain ⟨m₁, m₂, hm, h1, h2⟩ := lookupA_decomp _ _ _ hnd hlk
      have hM : setA s.components c.key c = m₁ ++ (c.key, c) :: m₂ := by
        rw [hm]
        exact setA_append_notmem _ _ _ _ _ h1
      have hid₁ : ∀ x ∈ m₁.map Prod.snd, x.id ≠ c.id := by
        rw [hm] at hids
        simp only [List.map_append, List.map_cons] at hids
        intro x hx hxid
        obtain ⟨kv, hkv, rfl⟩ := List.mem_map.mp hx
        have hmem : kv.2.id ∈ m₁.map (fun kv => kv.2.id) :=
          List.mem_map.mpr ⟨kv, hkv, rfl⟩
        rw [hxid, ← hcid] at hmem
        exact (List.nodup_cons.mp (List.nodup_middle.mp hids)).1
          (List.mem_append.mpr (Or.inl hmem))
      refine ⟨?_, ?_, ?_, ?_⟩
      · intro kv hkv
        simp only [applyCompOp, InMemoryStore.updateComponent, hM] at hkv
        rcases List.mem_append.mp hkv with h | h
        · exact hkeys kv (by rw [hm]; exact List.mem_append.mpr (Or.inl h))
        · rcases List.mem_cons.mp h with rfl | h'
          · rfl
          · exact hkeys kv
              (by rw [hm]; exact List.mem_append.mpr (Or.inr (List.mem_cons_of_mem _ h')))
      · show ((setA s.components c.key c).map Prod.fst).Nodup
        rw [hM]
        rw [hm] at hnd
        simpa using hnd
      · show ((setA s.components c.key c).map (fun kv => kv.2.id)).Nodup
        rw [hM]
        rw [hm] at hids
        simp only [List.map_append, List.map_cons] at hids ⊢
        rw [← hcid] at *
        exact hids
      · intro e
        show (lookupA (setA s.componentsByEntity c.entityId
              (replaceOrAppendById
                ((lookupA s.componentsByEntity c.entityId).getD []) c)) e).getD []
            = ((setA s.components c.key c).map Prod.snd).filter
                (fun x => x.entityId == e)
        have hold := hcons c.entityId
        simp only [InMemoryStore.getComponents] at hold
        have holdm : (lookupA s.componentsByEntity c.entityId).getD []
            = (m₁.map Prod.snd).filter (fun x => x.entityId == c.entityId)
              ++ c' :: (m₂.map Prod.snd).filter (fun x => x.entityId == c.entityId) := by
          rw [hold, hm]
          simp [List.filter_append, hce]
        by_cases he : c.entityId = e
        · subst he
          rw [lookupA_setA_self, Option.getD_some, holdm,
            replaceOrAppendById_decomp _ _ _ _
              (fun x hx => hid₁ x (List.mem_filter.mp hx).1) hcid, hM]
          simp [List.filter_append]
        · rw [lookupA_setA_ne _ _ _ _ (fun hh => he hh.symm)]
          have holde := hcons e
          simp only [InMemoryStore.getComponents] at holde
          rw [holde, hM, hm]
          have hc'e : (c'.entityId == e) = false := by
            simp only [beq_eq_false_iff_ne, ne_eq, hce]
            exact he
          have hcee : (c.entityId == e) = false := by
            simp only [beq_eq_false_iff_ne, ne_eq]
            exact he
          simp [List.filter_append, hc'e, hcee]
  | .delete cid =>
    cases hf : s.components.find? (fun kv => kv.2.id == cid) with
    | none =>
      have hres : applyCompOp s (.delete cid) = s := by
        simp [applyCompOp, InMemoryStore.deleteComponent, hf]
      rw [hres]
      exact wf
    | some kv₀ =>
      obtain ⟨k₀, c₀⟩ := kv₀
      obtain ⟨hkeys, hnd, hids, hcons⟩ := wf
      obtain ⟨m₁, m₂, hm, hno, hp⟩ := findFirst_decomp _ _ _ hf
      have hc₀ : c₀.id = cid := by simpa using hp
      have hno' : ∀ y ∈ m₁, y.2.id ≠ cid := by
        intro y hy
        simpa using hno y hy
      have hres : applyCompOp s (.delete cid)
          = ⟨eraseA s.components k₀,
             setA s.componentsByEntity c₀.entityId
               (removeFirstById
                 ((lookupA s.componentsByEntity c₀.entityId).getD []) cid)⟩ := by
        simp [applyCompOp, InMemoryStore.deleteComponent, hf]
      rw [hres]
      have hndm := hnd
      rw [hm] at hndm
      simp only [List.map_append, List.map_cons] at hndm
      have hk₀not := (List.nodup_cons.mp (List.nodup_middle.mp hndm)).1
      have hErase : eraseA s.components k₀ = m₁ ++ m₂ := by
        rw [hm, eraseA_append]
        have h2 : eraseA ((k₀, c₀) :: m₂) k₀ = eraseA m₂ k₀ := by simp [eraseA]
        rw [h2,
          eraseA_of_not_mem m₁ k₀
            (fun hmem => hk₀not (List.mem_append.mpr (Or.inl hmem))),
          eraseA_of_not_mem m₂ k₀
            (fun hmem => hk₀not (List.mem_append.mpr (Or.inr hmem)))]
      have hidsm := hids
      rw [hm] at hidsm
      simp only [List.map_append, List.map_cons] at hidsm
      have hid₁ : ∀ x ∈ m₁.map Prod.snd, x.id ≠ cid := by
        intro x hx hxid
        obtain ⟨kv, hkv, rfl⟩ := List.mem_map.mp hx
        exact hno' kv hkv hxid
      refine ⟨?_, ?_, ?_, ?_⟩
      · intro kv hkv
        simp only [hErase] at hkv
        rcases List.mem_append.mp hkv with h | h
        · exact hkeys kv (by rw [hm]; exact List.mem_append.mpr (Or.inl h))
        · exact hkeys kv
            (by rw [hm]; exact List.mem_append.mpr (Or.inr (List.mem_cons_of_mem _ h)))
      · show ((eraseA s.components k₀).map Prod.fst).Nodup
        rw [hErase, List.map_append]
        exact (List.nodup_cons.mp (List.nodup_middle.mp hndm)).2
      · show ((eraseA s.components k₀).map (fun kv => kv.2.id)).Nodup
        rw [hErase, List.map_append]
        exact (List.nodup_cons.mp (List.nodup_middle.mp hidsm)).2
      · intro e
        show (lookupA (setA s.componentsByEntity c₀.entityId
              (removeFirstById
                ((lookupA s.componentsByEntity c₀.entityId).getD []) cid)) e).getD []
            = ((eraseA s.components k₀).map Prod.snd).filter (fun x => x.entityId == e)
        rw [hErase]
        have hold := hcons c₀.entityId
        simp only [InMemoryStore.getComponents] at hold
        have holdm : (lookupA s.componentsByEntity c₀.entityId).getD []
            = (m₁.map Prod.snd).filter (fun x => x.entityId == c₀.entityId)
              ++ c₀ :: (m₂.map Prod.snd).filter (fun x => x.entityId == c₀.entityId) := by
          rw [hold, hm]
          simp [List.filter_append]
        by_cases he : c₀.entityId = e
        · subst he
          rw [lookupA_setA_self, Option.getD_some, holdm,
            removeFirstById_decomp _ _ _ _
              (fun x hx => hid₁ x (List.mem_filter.mp hx).1) hc₀]
          simp [List.filter_append]
        · rw [lookupA_setA_ne _ _ _ _ (fun hh => he hh.symm)]
          have holde := hcons e
          simp only [InMemoryStore.getComponents] at holde
          rw [holde, hm]
          have hc₀e : (c₀.entityId == e) = false := by
            simp only [beq_eq_false_iff_ne, ne_eq]
            exact he
          simp [List.filter_append, hc₀e]

/-- The write discipline preserves the invariant across a whole trace. -/
theorem applyCompOps_wf (s : ComponentStore) (ops : List CompOp)
    (wf : WFComponents s) (h : OkTrace s ops) :
    WFComponents (applyCompOps s ops) := by
  induction ops generalizing s with
  | nil => exact wf
  | cons op rest ih =>
    obtain ⟨hok, htr⟩ := h
    exact ih (applyCompOp s op) (applyCompOp_wf s op wf hok) htr

/-- The empty store satisfies the invariant. -/
theorem wf_empty : WFComponents emptyComponents :=
  ⟨by intro kv h; simp [emptyComponents] at h,
   by simp [emptyComponents],
   by simp [emptyComponents],
   fun _ => rfl⟩

/-- C2 (amended): for every sequence of component create/update/delete
operations satisfying the write discipline — each create targets a composite
key not currently present and a component id not currently in use, and each
update either does the same or matches the component currently stored at its
composite key (same id, same entity) — the two component structures stay
consistent: each per-entity list is exactly the list of flat-map components
with that entityId, and in particular at most one component per composite
key appears in any per-entity list.  (Without the discipline the invariant
fails: see the counterexample, a double create on one composite key.) -/
theorem C2_component_consistency (ops : List CompOp)
    (h : OkTrace emptyComponents ops) :
    (∀ e, InMemoryStore.getComponents (applyCompOps emptyComponents ops) e
        = ((applyCompOps emptyComponents ops).components.map Prod.snd).filter
            (fun c => c.entityId == e)) ∧
    (∀ e, ((InMemoryStore.getComponents
        (applyCompOps emptyComponents ops) e).map Component.key).Nodup) := by
  obtain ⟨hkeys, hnd, hids, hcons⟩ := applyCompOps_wf emptyComponents ops wf_empty h
  refine ⟨hcons, ?_⟩
  intro e
  rw [hcons e]
  have hmapeq : ((applyCompOps emptyComponents ops).components.map Prod.snd).map
        Component.key
      = (applyCompOps emptyComponents ops).components.map Prod.fst := by
    rw [List.map_map]
    exact List.map_congr_left (fun kv hkv => (hkeys kv hkv).symm)
  have hsub : List.Sublist
      ((((applyCompOps emptyComponents ops).components.map Prod.snd).filter
        (fun c => c.entityId == e)).map Component.key)
      (((applyCompOps emptyComponents ops).components.map Prod.snd).map
        Component.key) :=
    List.Sublist.map _ (List.filter_sublist _)
  rw [hmapeq] at hsub
  exact List.Nodup.sublist hsub hnd

/-- Third C2 witness component: same entity as `c1ex` but a different
composite key and id. -/
def c3ex : Component := ⟨"c3", "e1", "U", none, none⟩

/-- C2 witness: `C2_component_consistency` on the concrete disciplined trace
create `c1ex`, create `c3ex`, delete `"c1"`, evaluated at entity `"e1"`. -/
theorem C2_component_consistency_witness :
    InMemoryStore.getComponents
        (applyCompOps emptyComponents
          [CompOp.create c1ex, CompOp.create c3ex, CompOp.delete "c1"]) "e1"
      = (((applyCompOps emptyComponents
          [CompOp.create c1ex, CompOp.create c3ex, CompOp.delete "c1"]).components.map
            Prod.snd).filter (fun c => c.entityId == "e1")) :=
  (C2_component_consistency
    [CompOp.create c1ex, CompOp.create c3ex, CompOp.delete "c1"]
    ⟨⟨by decide, by decide⟩, ⟨by decide, by decide⟩, trivial, trivial⟩).1 "e1"

/-! ## Memory storage and vector search (`InMemoryStore`, in-memory-store.ts)

Memories live in per-table append-ordered lists (`memories : Map<table,
Memory[]>`) plus a global id → memory map.  `createMemory` fills absent
`id`/`createdAt`, appends, and evicts oldest-first while the table exceeds
`MAX_MEMORIES_PER_TABLE` (10 000), removing evicted ids from the id map.
`searchMemories` filters candidates, scores them with `cosineSimilarity`,
keeps those at/above `match_threshold` (default 0.5), sorts by descending
similarity (a stable comparator sort), truncates to `count` (default 10)
and attaches each score.

IEEE doubles are idealised as an arbitrary linear ordered field `K`;
`Math.sqrt` is an explicit parameter `sqrt : K → K`. -/

/-- A memory row (the fields the store reads or writes). -/
structure Memory (K : Type) where
  id : Option String
  entityId : String
  agentId : Option String
  roomId : String
  worldId : Option String
  createdAt : Option Int
  unique : Bool
  embedding : Option (List K)
  similarity : Option K
deriving DecidableEq, Repr

/-- The memory-related state of an `InMemoryStore`. -/
structure MemoryStore (K : Type) where
  memories : List (String × List (Memory K))
  memoriesById : List (String × Memory K)

/-- A fresh memory store. -/
def emptyMemories (K : Type) : MemoryStore K := ⟨[], []⟩

namespace InMemoryStore

/-- `static readonly MAX_MEMORIES_PER_TABLE = 10_000`. -/
def MAX_MEMORIES_PER_TABLE : Nat := 10000

/-- The key a memory is stored under in the id map (all stored memories
have an id assigned by `createMemory`). -/
def idKey {K : Type} (m : Memory K) : String := m.id.getD ""

/-- The `while (table.length > MAX) { shift(); delete byId }` eviction loop
of `createMemory`. -/
def evictLoop {K : Type} :
    List (Memory K) → List (String × Memory K) →
      List (Memory K) × List (String × Memory K)
  | [], byId => ([], byId)
  | m :: rest, byId =>
    if (m :: rest).length > MAX_MEMORIES_PER_TABLE then
      evictLoop rest (match m.id with | some i => eraseA byId i | none => byId)
    else (m :: rest, byId)

/-- `createMemory(memory, tableName)`: assign `id`/`createdAt` if absent,
append to the table, evict past the cap, and index by id.  Returns the new
store and the assigned id (`freshId`/`now` stand for `randomUUID()` and
`Date.now()`). -/
def createMemory {K : Type} (s : MemoryStore K) (m : Memory K)
    (tableName : String) (freshId : String) (now : Int) :
    MemoryStore K × String :=
  let id := m.id.getD freshId
  let full : Memory K :=
    { m with id := some id, createdAt := some (m.createdAt.getD now) }
  let table := (lookupA s.memories tableName).getD [] ++ [full]
  let evicted := evictLoop table s.memoriesById
  ({ memories := setA s.memories tableName evicted.1
     memoriesById := setA evicted.2 id full }, id)

/-- `getMemoryById(id)`. -/
def getMemoryById {K : Type} (s : MemoryStore K) (id : String) :
    Option (Memory K) :=
  lookupA s.memoriesById id

end InMemoryStore

section Cosine

variable {K : Type} [LinearOrderedField K]

/-- The `dotProduct` accumulator of `cosineSimilarity`'s loop. -/
def dotProduct (a b : List K) : K :=
  ((a.zip b).map (fun p => p.1 * p.2)).sum

/-- The `normA`/`normB` accumulator of `cosineSimilarity`'s loop. -/
def normSq (a : List K) : K :=
  (a.map (fun x => x * x)).sum

/-- `cosineSimilarity(a, b)` (in-memory-store.ts): 0 for unequal lengths or
empty vectors; 0 when the denominator `sqrt(normA) * sqrt(normB)` is 0;
else the normalised dot product. -/
def cosineSimilarity (sqrt : K → K) (a b : List K) : K :=
  if a.length ≠ b.length ∨ a.length = 0 then 0
  else if sqrt (normSq a) * sqrt (normSq b) = 0 then 0
  else dotProduct a b / (sqrt (normSq a) * sqrt (normSq b))

theorem dotProduct_comm (a b : List K) : dotProduct a b = dotProduct b a := by
  induction a generalizing b with
  | nil => cases b <;> simp [dotProduct]
  | cons x xs ih =>
    cases b with
    | nil => simp [dotProduct]
    | cons y ys =>
      simp only [dotProduct, List.zip_cons_cons, List.map_cons, List.sum_cons]
      rw [mul_comm]
      have := ih ys
      simp only [dotProduct] at this
      rw [this]

theorem dotProduct_self (v : List K) : dotProduct v v = normSq v := by
  induction v with
  | nil => rfl
  | cons x xs ih =>
    simp only [dotProduct, normSq, List.zip_cons_cons, List.map_cons,
      List.sum_cons] at ih ⊢
    rw [ih]

theorem normSq_nonneg (v : List K) : 0 ≤ normSq v := by
  induction v with
  | nil => simp [normSq]
  | cons x xs ih =>
    simp only [normSq, List.map_cons, List.sum_cons] at ih ⊢
    exact add_nonneg (mul_self_nonneg x) ih

theorem normSq_nil : normSq ([] : List K) = 0 := rfl

end Cosine

/-- C7: totality and basic laws of the cosine-similarity scorer (doubles
idealised as a linear ordered field, `Math.sqrt` as any function that is a
square root on nonnegatives where required).  `similarity(v, w) = 0`
whenever the lengths differ or either magnitude `sqrt(‖·‖²)` is 0;
similarity is symmetric; and `similarity(v, v) = 1` for nonzero vectors.
The function is total by construction — it never throws or divides by
zero. -/
theorem C7_cosine_similarity (K : Type) [LinearOrderedField K]
    (sqrt : K → K) (v w : List K) :
    ((v.length ≠ w.length ∨ sqrt (normSq v) = 0 ∨ sqrt (normSq w) = 0) →
      cosineSimilarity sqrt v w = 0) ∧
    cosineSimilarity sqrt v w = cosineSimilarity sqrt w v ∧
    ((∀ x : K, 0 ≤ x → sqrt x * sqrt x = x) → normSq v ≠ 0 →
      cosineSimilarity sqrt v v = 1) := by
  refine ⟨?_, ?_, ?_⟩
  · intro h
    by_cases hc : v.length ≠ w.length ∨ v.length = 0
    · unfold cosineSimilarity
      rw [if_pos hc]
    · push_neg at hc
      obtain ⟨hlen, h0⟩ := hc
      rcases h with hx | hz | hz
      · exact absurd hlen hx
      · unfold cosineSimilarity
        rw [if_neg (by push_neg; exact ⟨hlen, h0⟩), if_pos (by rw [hz, zero_mul])]
      · unfold cosineSimilarity
        rw [if_neg (by push_neg; exact ⟨hlen, h0⟩), if_pos (by rw [hz, mul_zero])]
  · by_cases hl : v.length = w.length
    · by_cases h0 : v.length = 0
      · have hw0 : w.length = 0 := hl ▸ h0
        unfold cosineSimilarity
        rw [if_pos (Or.inr h0), if_pos (Or.inr hw0)]
      · have hw0 : w.length ≠ 0 := hl ▸ h0
        have h1 : cosineSimilarity sqrt v w
            = if sqrt (normSq v) * sqrt (normSq w) = 0 then 0
              else dotProduct v w / (sqrt (normSq v) * sqrt (normSq w)) := by
          unfold cosineSimilarity
          rw [if_neg (by push_neg; exact ⟨hl, h0⟩)]
        have h2 : cosineSimilarity sqrt w v
            = if sqrt (normSq w) * sqrt (normSq v) = 0 then 0
              else dotProduct w v / (sqrt (normSq w) * sqrt (normSq v)) := by
          unfold cosineSimilarity
          rw [if_neg (by push_neg; exact ⟨hl.symm, hw0⟩)]
        rw [h1, h2, dotProduct_comm, mul_comm (sqrt (normSq v))]
    · have hl' : w.length ≠ v.length := fun hh => hl hh.symm
      unfold cosineSimilarity
      rw [if_pos (Or.inl hl), if_pos (Or.inl hl')]
  · intro hs hv
    have hlen : v.length ≠ 0 := by
      intro h0
      have hnil : v = [] := List.length_eq_zero.mp h0
      rw [hnil, normSq_nil] at hv
      exact hv rfl
    have hden : sqrt (normSq v) * sqrt (normSq v) = normSq v :=
      hs _ (normSq_nonneg v)
    unfold cosineSimilarity
    rw [if_neg (by push_neg; exact ⟨rfl, hlen⟩),
      if_neg (by rw [hden]; exact hv), dotProduct_self, hden, div_self hv]

/-- C7 witness: `C7_cosine_similarity` over `ℝ` with `Real.sqrt`, at
`v = [1, 2]` and `w = [3]`. -/
theorem C7_cosine_similarity_witness :
    cosineSimilarity Real.sqrt ([1, 2] : List ℝ) [1, 2] = 1 ∧
    cosineSimilarity Real.sqrt ([1, 2] : List ℝ) [3] = 0 :=
  ⟨(C7_cosine_similarity ℝ Real.sqrt [1, 2] [1, 2]).2.2
      (fun _ hx => Real.mul_self_sqrt hx)
      (by norm_num [normSq]),
   (C7_cosine_similarity ℝ Real.sqrt [1, 2] [3]).1
      (Or.inl (by norm_num))⟩

/-! ### C5: eviction boundary of `createMemory` -/

/-- Insert a list of memories into one table.  The fresh-id and timestamp
stand-ins (`"fresh"`, `0`) are only used for memories without an explicit
`id`/`createdAt`. -/
def insertAll {K : Type} (s : MemoryStore K) (tbl : String)
    (ms : List (Memory K)) : MemoryStore K :=
  ms.foldl (fun s m => (InMemoryStore.createMemory s m tbl "fresh" 0).1) s

/-- A memory as stored by `createMemory` (the `{ ...memory, id, createdAt }`
spread). -/
def mFull {K : Type} (m : Memory K) : Memory K :=
  { m with id := some (m.id.getD "fresh"), createdAt := some (m.createdAt.getD 0) }

/-- The last `n` entries of a list. -/
def takeLast {α : Type} (n : Nat) (l : List α) : List α :=
  l.drop (l.length - n)

theorem takeLast_of_le {α : Type} (n : Nat) (l : List α) (h : l.length ≤ n) :
    takeLast n l = l := by
  unfold takeLast
  rw [Nat.sub_eq_zero_of_le h, List.drop_zero]

theorem takeLast_cons {α : Type} (n : Nat) (x : α) (l : List α)
    (h : n ≤ l.length) : takeLast n (x :: l) = takeLast n l := by
  unfold takeLast
  have harith : (x :: l).length - n = (l.length - n) + 1 := by
    simp only [List.length_cons]
    omega
  rw [harith, List.drop_succ_cons]

theorem lookupA_of_mem {β : Type} (m : List (String × β)) (k : String) (v : β)
    (hnd : (m.map Prod.fst).Nodup) (h : (k, v) ∈ m) : lookupA m k = some v := by
  induction m with
  | nil => simp at h
  | cons kv rest ih =>
    obtain ⟨k1, v1⟩ := kv
    rcases List.mem_cons.mp h with heq | hmem
    · injection heq with h1 h2
      subst h1
      subst h2
      simp [lookupA]
    · by_cases hk : k1 = k
      · subst hk
        have : k1 ∈ rest.map Prod.fst :=
          List.mem_map.mpr ⟨(k1, v), hmem, rfl⟩
        exact absurd this (List.nodup_cons.mp hnd).1
      · simp only [lookupA, if_neg hk]
        exact ih (List.nodup_cons.mp hnd).2 hmem

theorem evictLoop_no_evict {K : Type} (t : List (Memory K))
    (byId : List (String × Memory K))
    (h : t.length ≤ InMemoryStore.MAX_MEMORIES_PER_TABLE) :
    InMemoryStore.evictLoop t byId = (t, byId) := by
  cases t with
  | nil => rfl
  | cons m rest =>
    unfold InMemoryStore.evictLoop
    rw [if_neg (Nat.not_lt.mpr h)]

theorem evictLoop_one {K : Type} (m : Memory K) (rest : List (Memory K))
    (byId : List (String × Memory K))
    (h : (m :: rest).length = InMemoryStore.MAX_MEMORIES_PER_TABLE + 1) :
    InMemoryStore.evictLoop (m :: rest) byId
      = (rest, match m.id with | some i => eraseA byId i | none => byId) := by
  have hr : rest.length ≤ InMemoryStore.MAX_MEMORIES_PER_TABLE := by
    simp only [List.length_cons] at h
    omega
  unfold InMemoryStore.evictLoop
  rw [if_pos (by rw [h]; omega)]
  exact evictLoop_no_evict rest _ hr

/-- `idKey` of the stored form equals `idKey` of the input when the input
carries an id. -/
theorem idKey_mFull {K : Type} (m : Memory K) (i : String) (hi : m.id = some i) :
    InMemoryStore.idKey (mFull m) = InMemoryStore.idKey m := by
  simp [InMemoryStore.idKey, mFull, hi]

/-- Unfolding of `createMemory` at the stand-in fresh id and timestamp: the
stored record is `mFull m` and the id-map key is its id. -/
theorem createMemory_eq {K : Type} (s : MemoryStore K) (m : Memory K)
    (tbl : String) :
    (InMemoryStore.createMemory s m tbl "fresh" 0).1
      = { memories := setA s.memories tbl
            (InMemoryStore.evictLoop
              ((lookupA s.memories tbl).getD [] ++ [mFull m]) s.memoriesById).1
          memoriesById := setA
            (InMemoryStore.evictLoop
              ((lookupA s.memories tbl).getD [] ++ [mFull m]) s.memoriesById).2
            (InMemoryStore.idKey (mFull m)) (mFull m) } := rfl

/-- Representation of repeated single-table insertion: starting from a store
whose table holds `t` (indexed consistently, under the cap), inserting `ms`
(all carrying ids, all ids fresh and distinct) leaves exactly the last
`MAX_MEMORIES_PER_TABLE` entries of `t ++ ms.map mFull` in the table, with
the id map indexing exactly those entries. -/
theorem insertAll_rep {K : Type} (tbl : String) (ms : List (Memory K)) :
    ∀ (s : MemoryStore K) (t : List (Memory K)),
    (lookupA s.memories tbl).getD [] = t →
    s.memoriesById = t.map (fun x => (InMemoryStore.idKey x, x)) →
    t.length ≤ InMemoryStore.MAX_MEMORIES_PER_TABLE →
    (∀ x ∈ t, x.id.isSome = true) →
    (∀ x ∈ ms, x.id.isSome = true) →
    ((t.map InMemoryStore.idKey) ++ (ms.map InMemoryStore.idKey)).Nodup →
    (lookupA (insertAll s tbl ms).memories tbl).getD []
        = takeLast InMemoryStore.MAX_MEMORIES_PER_TABLE (t ++ ms.map mFull) ∧
    (insertAll s tbl ms).memoriesById
        = (takeLast InMemoryStore.MAX_MEMORIES_PER_TABLE (t ++ ms.map mFull)).map
            (fun x => (InMemoryStore.idKey x, x)) := by
  induction ms with
  | nil =>
    intro s t h1 h2 h3 _ _ _
    have ht : takeLast InMemoryStore.MAX_MEMORIES_PER_TABLE
        (t ++ List.map mFull []) = t := by
      simp only [List.map_nil, List.append_nil]
      exact takeLast_of_le _ _ h3
    rw [ht]
    exact ⟨h1, h2⟩
  | cons m ms' ih =>
    intro s t h1 h2 h3 htids hmsids hnodup
    obtain ⟨i, hi⟩ := Option.isSome_iff_exists.mp (hmsids m (List.mem_cons_self m ms'))
    have hikey : InMemoryStore.idKey m = i := by simp [InMemoryStore.idKey, hi]
    have hikeyF : InMemoryStore.idKey (mFull m) = i := by
      rw [idKey_mFull m i hi, hikey]
    have hdisj : List.Disjoint (t.map InMemoryStore.idKey)
        ((m :: ms').map InMemoryStore.idKey) :=
      List.disjoint_of_nodup_append hnodup
    have hiNotT : i ∉ t.map InMemoryStore.idKey := by
      intro hmem
      refine hdisj hmem ?_
      rw [List.map_cons, hikey]
      exact List.mem_cons_self _ _
    have hkeysById : (t.map (fun x => (InMemoryStore.idKey x, x))).map Prod.fst
        = t.map InMemoryStore.idKey := by
      rw [List.map_map]
      rfl
    have hinsert : insertAll s tbl (m :: ms')
        = insertAll (InMemoryStore.createMemory s m tbl "fresh" 0).1 tbl ms' := rfl
    rcases Nat.lt_or_ge t.length InMemoryStore.MAX_MEMORIES_PER_TABLE with hlt | hge
    · -- under the cap: no eviction
      have hle : (t ++ [mFull m]).length ≤ InMemoryStore.MAX_MEMORIES_PER_TABLE := by
        simp only [List.length_append, List.length_cons, List.length_nil]
        omega
      have hstep : (InMemoryStore.createMemory s m tbl "fresh" 0).1
          = { memories := setA s.memories tbl (t ++ [mFull m])
              memoriesById :=
                setA s.memoriesById (InMemoryStore.idKey (mFull m)) (mFull m) } := by
        rw [createMemory_eq, h1, evictLoop_no_evict _ _ hle]
      have hbyid : setA s.memoriesById (InMemoryStore.idKey (mFull m)) (mFull m)
          = (t ++ [mFull m]).map (fun x => (InMemoryStore.idKey x, x)) := by
        rw [h2, setA_of_not_mem, List.map_append]
        · rfl
        · rw [hkeysById, hikeyF]
          exact hiNotT
      have hres := ih (InMemoryStore.createMemory s m tbl "fresh" 0).1
        (t ++ [mFull m])
        (by rw [hstep]; exact congrArg (Option.getD · []) (lookupA_setA_self _ _ _))
        (by rw [hstep]; exact hbyid)
        hle
        (by
          intro x hx
          rcases List.mem_append.mp hx with hx | hx
          · exact htids x hx
          · simp only [List.mem_singleton] at hx
            subst hx
            simp [mFull])
        (fun x hx => hmsids x (List.mem_cons_of_mem _ hx))
        (by
          simp only [List.map_append, List.map_cons, List.map_nil, hikeyF,
            List.append_assoc, List.singleton_append]
          simpa [List.map_cons, hikey] using hnodup)
      rw [hinsert]
      have hassoc : (t ++ [mFull m]) ++ ms'.map mFull
          = t ++ (m :: ms').map mFull := by
        simp [List.append_assoc]
      rw [hassoc] at hres
      exact hres
    · -- at the cap: the oldest entry is evicted
      have heq : t.length = InMemoryStore.MAX_MEMORIES_PER_TABLE :=
        Nat.le_antisymm h3 hge
      cases t with
      | nil =>
        exfalso
        simp only [List.length_nil, InMemoryStore.MAX_MEMORIES_PER_TABLE] at heq
        omega
      | cons h₀ t₀ =>
        obtain ⟨i₀, hi₀⟩ := Option.isSome_iff_exists.mp
          (htids h₀ (List.mem_cons_self h₀ t₀))
        have hikey₀ : InMemoryStore.idKey h₀ = i₀ := by
          simp [InMemoryStore.idKey, hi₀]
        have ht₀len : t₀.length + 1 = InMemoryStore.MAX_MEMORIES_PER_TABLE := by
          simpa using heq
        have htnodup : ((h₀ :: t₀).map InMemoryStore.idKey).Nodup :=
          List.Nodup.of_append_left hnodup
        have hi₀NotT₀ : i₀ ∉ t₀.map InMemoryStore.idKey := by
          have := htnodup
          rw [List.map_cons, hikey₀] at this
          exact (List.nodup_cons.mp this).1
        have herase :
            (match h₀.id with
              | some j => eraseA s.memoriesById j
              | none => s.memoriesById)
            = t₀.map (fun x => (InMemoryStore.idKey x, x)) := by
          rw [hi₀]
          show eraseA s.memoriesById i₀ = _
          rw [h2, List.map_cons, hikey₀]
          have hstep1 : eraseA ((i₀, h₀) :: t₀.map (fun x => (InMemoryStore.idKey x, x))) i₀
              = eraseA (t₀.map (fun x => (InMemoryStore.idKey x, x))) i₀ := by
            simp [eraseA]
          rw [hstep1, eraseA_of_not_mem]
          rw [show (t₀.map (fun x => (InMemoryStore.idKey x, x))).map Prod.fst
              = t₀.map InMemoryStore.idKey from by rw [List.map_map]; rfl]
          exact hi₀NotT₀
        have hlen1 : (h₀ :: (t₀ ++ [mFull m])).length
            = InMemoryStore.MAX_MEMORIES_PER_TABLE + 1 := by
          simp only [List.length_cons, List.length_append, List.length_nil]
          omega
        have hstep : (InMemoryStore.createMemory s m tbl "fresh" 0).1
            = { memories := setA s.memories tbl (t₀ ++ [mFull m])
                memoriesById :=
                  setA (t₀.map (fun x => (InMemoryStore.idKey x, x)))
                    (InMemoryStore.idKey (mFull m)) (mFull m) } := by
          rw [createMemory_eq, h1, List.cons_append,
            evictLoop_one _ _ _ hlen1, herase]
        have hbyid : setA (t₀.map (fun x => (InMemoryStore.idKey x, x)))
              (InMemoryStore.idKey (mFull m)) (mFull m)
            = (t₀ ++ [mFull m]).map (fun x => (InMemoryStore.idKey x, x)) := by
          rw [setA_of_not_mem, List.map_append]
          · rfl
          · rw [show (t₀.map (fun x => (InMemoryStore.idKey x, x))).map Prod.fst
                = t₀.map InMemoryStore.idKey from by rw [List.map_map]; rfl,
              hikeyF]
            intro hmem
            exact hiNotT (by rw [List.map_cons, hikey₀]; exact List.mem_cons_of_mem _ hmem)
        have hres := ih (InMemoryStore.createMemory s m tbl "fresh" 0).1
          (t₀ ++ [mFull m])
          (by rw [hstep]; exact congrArg (Option.getD · []) (lookupA_setA_self _ _ _))
          (by rw [hstep]; exact hbyid)
          (by
            simp only [List.length_append, List.length_cons, List.length_nil]
            omega)
          (by
            intro x hx
            rcases List.mem_append.mp hx with hx | hx
            · exact htids x (List.mem_cons_of_mem _ hx)
            · simp only [List.mem_singleton] at hx
              subst hx
              simp [mFull])
          (fun x hx => hmsids x (List.mem_cons_of_mem _ hx))
          (by
            have hn : ((h₀ :: t₀).map InMemoryStore.idKey
                ++ (m :: ms').map InMemoryStore.idKey).Nodup := hnodup
            rw [List.map_cons, List.map_cons, hikey₀, hikey, List.cons_append] at hn
            have hn' := List.Nodup.of_cons hn
            simp only [List.map_append, List.map_cons, List.map_nil, hikeyF,
              List.append_assoc, List.singleton_append]
            exact hn')
        rw [hinsert]
        have hassoc : (t₀ ++ [mFull m]) ++ ms'.map mFull
            = t₀ ++ (m :: ms').map mFull := by
          simp [List.append_assoc]
        rw [hassoc] at hres
        have htake1 : takeLast InMemoryStore.MAX_MEMORIES_PER_TABLE
              ((h₀ :: t₀) ++ (m :: ms').map mFull)
            = takeLast InMemoryStore.MAX_MEMORIES_PER_TABLE
              (t₀ ++ (m :: ms').map mFull) := by
          rw [List.cons_append]
          apply takeLast_cons
          simp only [List.map_cons, List.length_append, List.length_cons,
            List.length_map]
          omega
        rw [htake1]
        exact hres

/-- C5: eviction boundary of `createMemory`.  Inserting
`MAX_MEMORIES_PER_TABLE + k` memories (distinct explicit ids) into one
table of a fresh store leaves exactly the cap in the table — precisely the
inserted list minus its `k` oldest entries — and the `k` oldest are
removed from both the table list and the id map (`getMemoryById` returns
null for them), while every newer id remains retrievable. -/
theorem C5_memory_eviction (K : Type) (tbl : String) (k : Nat) (hk : 0 < k)
    (ms : List (Memory K))
    (hlen : ms.length = InMemoryStore.MAX_MEMORIES_PER_TABLE + k)
    (hsome : ∀ x ∈ ms, x.id.isSome = true)
    (hnd : (ms.map InMemoryStore.idKey).Nodup) :
    (lookupA (insertAll (emptyMemories K) tbl ms).memories tbl).getD []
        = (ms.map mFull).drop k ∧
    ((lookupA (insertAll (emptyMemories K) tbl ms).memories tbl).getD []).length
        = InMemoryStore.MAX_MEMORIES_PER_TABLE ∧
    (∀ x ∈ ms.take k,
      InMemoryStore.getMemoryById (insertAll (emptyMemories K) tbl ms)
        (InMemoryStore.idKey x) = none) ∧
    (∀ x ∈ ms.drop k,
      InMemoryStore.getMemoryById (insertAll (emptyMemories K) tbl ms)
        (InMemoryStore.idKey x) = some (mFull x)) ∧
    (∀ x ∈ ms.take k,
      mFull x ∉ (lookupA (insertAll (emptyMemories K) tbl ms).memories tbl).getD []) := by
  obtain ⟨h1, h2⟩ := insertAll_rep tbl ms (emptyMemories K) [] rfl rfl
    (Nat.zero_le _) (fun x hx => absurd hx (List.not_mem_nil x)) hsome
    (by simpa using hnd)
  rw [List.nil_append] at h1 h2
  have hTake : takeLast InMemoryStore.MAX_MEMORIES_PER_TABLE (ms.map mFull)
      = (ms.map mFull).drop k := by
    unfold takeLast
    rw [List.length_map, hlen,
      show InMemoryStore.MAX_MEMORIES_PER_TABLE + k
          - InMemoryStore.MAX_MEMORIES_PER_TABLE = k from by omega]
  rw [hTake] at h1 h2
  have hidkeys : (ms.map mFull).map InMemoryStore.idKey = ms.map InMemoryStore.idKey := by
    rw [List.map_map]
    apply List.map_congr_left
    intro x hx
    obtain ⟨i, hi⟩ := Option.isSome_iff_exists.mp (hsome x hx)
    exact idKey_mFull x i hi
  have hbyIdKeys : (insertAll (emptyMemories K) tbl ms).memoriesById.map Prod.fst
      = (ms.map InMemoryStore.idKey).drop k := by
    rw [h2, List.map_map]
    show ((ms.map mFull).drop k).map InMemoryStore.idKey = _
    rw [List.map_drop, hidkeys]
  have hdisj : List.Disjoint ((ms.map InMemoryStore.idKey).take k)
      ((ms.map InMemoryStore.idKey).drop k) := by
    apply List.disjoint_of_nodup_append
    rw [List.take_append_drop]
    exact hnd
  refine ⟨h1, ?_, ?_, ?_, ?_⟩
  · rw [h1, List.length_drop, List.length_map, hlen]
    omega
  · intro x hx
    rw [InMemoryStore.getMemoryById, lookupA_eq_none_iff, hbyIdKeys]
    intro hmem
    refine hdisj ?_ hmem
    rw [← List.map_take]
    exact List.mem_map.mpr ⟨x, hx, rfl⟩
  · intro x hx
    have hxms : x ∈ ms := List.mem_of_mem_drop hx
    obtain ⟨i, hi⟩ := Option.isSome_iff_exists.mp (hsome x hxms)
    rw [InMemoryStore.getMemoryById]
    apply lookupA_of_mem
    · rw [hbyIdKeys]
      exact List.Nodup.sublist (List.drop_sublist k _) hnd
    · rw [h2, ← List.map_drop]
      have hxin : mFull x ∈ (ms.drop k).map mFull := List.mem_map.mpr ⟨x, hx, rfl⟩
      have hpair : (InMemoryStore.idKey (mFull x), mFull x)
          ∈ ((ms.drop k).map mFull).map (fun y => (InMemoryStore.idKey y, y)) :=
        List.mem_map.mpr ⟨mFull x, hxin, rfl⟩
      rwa [idKey_mFull x i hi] at hpair
  · intro x hx hmem
    rw [h1] at hmem
    have : InMemoryStore.idKey (mFull x) ∈ ((ms.map mFull).drop k).map
        InMemoryStore.idKey := List.mem_map.mpr ⟨mFull x, hmem, rfl⟩
    rw [List.map_drop, hidkeys] at this
    obtain ⟨i, hi⟩ := Option.isSome_iff_exists.mp
      (hsome x (List.mem_of_mem_take hx))
    rw [idKey_mFull x i hi] at this
    refine hdisj ?_ this
    rw [← List.map_take]
    exact List.mem_map.mpr ⟨x, hx, rfl⟩

/-- Concrete memory for the C5 witness: id `"a"·i` (i copies of `'a'`). -/
def mkTestMemory (i : Nat) : Memory ℚ :=
  { id := some (String.mk (List.replicate i 'a')), entityId := "e",
    agentId := none, roomId := "r", worldId := none, createdAt := some 0,
    unique := false, embedding := none, similarity := none }

/-- C5 witness: `C5_memory_eviction` at `k = 1` with 10 001 distinct-id
memories in table `"messages"`. -/
theorem C5_memory_eviction_witness :
    ((lookupA (insertAll (emptyMemories ℚ) "messages"
        ((List.range (InMemoryStore.MAX_MEMORIES_PER_TABLE + 1)).map
          mkTestMemory)).memories "messages").getD []).length
      = InMemoryStore.MAX_MEMORIES_PER_TABLE :=
  (C5_memory_eviction ℚ "messages" 1 (by decide)
    ((List.range (InMemoryStore.MAX_MEMORIES_PER_TABLE + 1)).map mkTestMemory)
    (by rw [List.length_map, List.length_range])
    (by
      intro x hx
      obtain ⟨j, _, rfl⟩ := List.mem_map.mp hx
      rfl)
    (by
      rw [List.map_map]
      refine List.Nodup.map ?_ (List.nodup_range _)
      intro a b hab
      have hrep : List.replicate a 'a' = List.replicate b 'a' := by
        injection hab
      have := congrArg List.length hrep
      simpa [List.length_replicate] using this)).2.1

/-! ### C6: `searchMemories` ordering, threshold and truncation -/

/-- The parameter record of `searchMemories`. -/
structure SearchParams (K : Type) where
  embedding : List K
  match_threshold : Option K
  count : Option Nat
  unique : Bool
  tableName : String
  roomId : Option String
  worldId : Option String
  entityId : Option String

namespace InMemoryStore

variable {K : Type} [LinearOrderedField K]

/-- The candidate filter of `searchMemories`: a non-empty embedding, and the
room/world/entity/uniqueness filters (a given filter id must match; an
absent one is ignored). -/
def memMatchesFilters (p : SearchParams K) (m : Memory K) : Bool :=
  match m.embedding with
  | none => false
  | some e =>
    !e.isEmpty &&
    (match p.roomId with | some r => m.roomId == r | none => true) &&
    (match p.worldId with | some w => m.worldId == some w | none => true) &&
    (match p.entityId with | some i => m.entityId == i | none => true) &&
    (!p.unique || m.unique)

/-- Stage 1 of `searchMemories`: the candidates of the table. -/
def searchCandidates (s : MemoryStore K) (p : SearchParams K) : List (Memory K) :=
  ((lookupA s.memories p.tableName).getD []).filter (memMatchesFilters p)

/-- Stage 2: score each candidate against the query embedding. -/
def searchScored (sqrt : K → K) (s : MemoryStore K) (p : SearchParams K) :
    List (Memory K × K) :=
  (searchCandidates s p).map
    (fun m => (m, cosineSimilarity sqrt p.embedding (m.embedding.getD [])))

/-- Stage 3: keep the scores at or above `match_threshold` (default 0.5). -/
def searchKept (sqrt : K → K) (s : MemoryStore K) (p : SearchParams K) :
    List (Memory K × K) :=
  (searchScored sqrt s p).filter
    (fun sm => decide (p.match_threshold.getD (1 / 2) ≤ sm.2))

/-- Stage 4: sort by descending similarity (stable comparator sort). -/
def searchSorted (sqrt : K → K) (s : MemoryStore K) (p : SearchParams K) :
    List (Memory K × K) :=
  (searchKept sqrt s p).mergeSort (fun a b => decide (b.2 ≤ a.2))

/-- `searchMemories(params)`: truncate to `count` (default 10) and attach
each similarity score to its memory. -/
def searchMemories (sqrt : K → K) (s : MemoryStore K) (p : SearchParams K) :
    List (Memory K) :=
  ((searchSorted sqrt s p).take (p.count.getD 10)).map
    (fun sm => { sm.1 with similarity := some sm.2 })

end InMemoryStore

/-- C6 counterexample memory: a valid candidate with embedding `[1]`. -/
def c6mem : Memory ℝ :=
  { id := some "cid", entityId := "e", agentId := none, roomId := "r",
    worldId := none, createdAt := some 0, unique := false,
    embedding := some [1], similarity := none }

/-- C6 counterexample store: table `"t"` holds just `c6mem`. -/
def c6store : MemoryStore ℝ := ⟨[("t", [c6mem])], [("cid", c6mem)]⟩

/-- C6 counterexample parameters: query `[-1]`, threshold 0, count 1, no
filters. -/
def c6params : SearchParams ℝ :=
  ⟨[-1], some 0, some 1, false, "t", none, none, none⟩

/-- C6 counterexample: with threshold 0 and count 1, `c6mem` is the single
(and hence highest-similarity) candidate, yet `searchMemories` returns `[]`
because its similarity (−1) is negative and the `>= threshold` filter drops
it — the claim's "the single highest-similarity candidate is returned" fails
unconditionally. -/
theorem C6_counterexample :
    InMemoryStore.searchCandidates c6store c6params = [c6mem] ∧
    InMemoryStore.searchMemories Real.sqrt c6store c6params = [] := by
  have hsim : cosineSimilarity Real.sqrt c6params.embedding
      (c6mem.embedding.getD []) = -1 := by
    show cosineSimilarity Real.sqrt [-1] ((some [1]).getD []) = -1
    rw [Option.getD_some]
    norm_num [cosineSimilarity, normSq, dotProduct, Real.sqrt_one]
  have hcand : InMemoryStore.searchCandidates c6store c6params = [c6mem] := rfl
  refine ⟨hcand, ?_⟩
  have hscored : InMemoryStore.searchScored Real.sqrt c6store c6params
      = [(c6mem, -1)] := by
    rw [InMemoryStore.searchScored, hcand, List.map_cons, List.map_nil, hsim]
  have hkept : InMemoryStore.searchKept Real.sqrt c6store c6params = [] := by
    rw [InMemoryStore.searchKept, hscored]
    simp only [List.filter_cons, List.filter_nil]
    rw [if_neg]
    simp only [decide_eq_true_eq]
    show ¬ ((some (0:ℝ)).getD (1/2) ≤ -1)
    rw [Option.getD_some]
    norm_num
  rw [InMemoryStore.searchMemories, InMemoryStore.searchSorted, hkept,
    List.mergeSort_nil]
  rfl

/-- C6 (amended): every returned memory is a candidate (non-empty embedding,
passing the room/world/entity/unique filters) carrying exactly its cosine
similarity to the query, which is at or above `match_threshold`
(default 0.5); the result is sorted by descending similarity; its length is
`count` (default 10) truncated at the number of above-threshold candidates;
and with threshold 0 and count 1, provided some candidate has nonnegative
similarity, exactly the single highest-similarity candidate is returned
(candidates of negative similarity are excluded by the threshold). -/
theorem C6_search_ordering (K : Type) [LinearOrderedField K] (sqrt : K → K)
    (s : MemoryStore K) (p : SearchParams K) :
    (∀ x ∈ InMemoryStore.searchMemories sqrt s p,
      ∃ m ∈ InMemoryStore.searchCandidates s p,
        x = { m with
              similarity := some (cosineSimilarity sqrt p.embedding (m.embedding.getD [])) } ∧
        p.match_threshold.getD (1 / 2)
          ≤ cosineSimilarity sqrt p.embedding (m.embedding.getD [])) ∧
    (InMemoryStore.searchMemories sqrt s p).Pairwise
      (fun a b => b.similarity.getD 0 ≤ a.similarity.getD 0) ∧
    (InMemoryStore.searchMemories sqrt s p).length
      = min (p.count.getD 10) (InMemoryStore.searchKept sqrt s p).length ∧
    (p.match_threshold = some 0 → p.count = some 1 →
      ∀ m₀ ∈ InMemoryStore.searchCandidates s p,
        0 ≤ cosineSimilarity sqrt p.embedding (m₀.embedding.getD []) →
        ∃ mx ∈ InMemoryStore.searchCandidates s p,
          InMemoryStore.searchMemories sqrt s p
            = [{ mx with
                similarity := some (cosineSimilarity sqrt p.embedding (mx.embedding.getD [])) }] ∧
          ∀ m' ∈ InMemoryStore.searchCandidates s p,
            cosineSimilarity sqrt p.embedding (m'.embedding.getD [])
              ≤ cosineSimilarity sqrt p.embedding (mx.embedding.getD [])) := by
  have htrans : ∀ a b c : Memory K × K,
      decide (b.2 ≤ a.2) = true → decide (c.2 ≤ b.2) = true →
        decide (c.2 ≤ a.2) = true := by
    intro a b c hab hbc
    simp only [decide_eq_true_eq] at hab hbc ⊢
    exact le_trans hbc hab
  have htotal : ∀ a b : Memory K × K,
      (decide (b.2 ≤ a.2) || decide (a.2 ≤ b.2)) = true := by
    intro a b
    simp only [Bool.or_eq_true, decide_eq_true_eq]
    exact le_total b.2 a.2
  have hperm := List.mergeSort_perm (InMemoryStore.searchKept sqrt s p)
    (fun a b => decide (b.2 ≤ a.2))
  have hsorted := List.sorted_mergeSort htrans htotal
    (InMemoryStore.searchKept sqrt s p)
  refine ⟨?_, ?_, ?_, ?_⟩
  · intro x hx
    rw [InMemoryStore.searchMemories] at hx
    obtain ⟨sm, hsm, rfl⟩ := List.mem_map.mp hx
    have hsorted_mem : sm ∈ InMemoryStore.searchSorted sqrt s p :=
      List.mem_of_mem_take hsm
    have hkept_mem : sm ∈ InMemoryStore.searchKept sqrt s p :=
      hperm.mem_iff.mp hsorted_mem
    obtain ⟨hscored_mem, hthr⟩ := List.mem_filter.mp hkept_mem
    obtain ⟨m, hmC, rfl⟩ := List.mem_map.mp hscored_mem
    exact ⟨m, hmC, rfl, of_decide_eq_true hthr⟩
  · rw [InMemoryStore.searchMemories]
    rw [List.pairwise_map]
    refine List.Pairwise.imp ?_
      (List.Pairwise.sublist (List.take_sublist _ _) hsorted)
    intro a b hab
    simp only [Option.getD_some]
    exact of_decide_eq_true hab
  · rw [InMemoryStore.searchMemories, List.length_map, List.length_take,
      InMemoryStore.searchSorted, hperm.length_eq]
  · intro hthr hcnt m₀ hm₀ hsim₀
    have hkept0 : (m₀, cosineSimilarity sqrt p.embedding (m₀.embedding.getD []))
        ∈ InMemoryStore.searchKept sqrt s p := by
      refine List.mem_filter.mpr ⟨List.mem_map.mpr ⟨m₀, hm₀, rfl⟩, ?_⟩
      rw [hthr, Option.getD_some]
      exact decide_eq_true hsim₀
    have hne : InMemoryStore.searchSorted sqrt s p ≠ [] := by
      intro hnil
      rw [InMemoryStore.searchSorted] at hnil
      have := hperm.symm.mem_iff.mp hkept0
      rw [hnil] at this
      exact absurd this (List.not_mem_nil _)
    cases hsort : InMemoryStore.searchSorted sqrt s p with
    | nil => exact absurd hsort hne
    | cons hd rest =>
      have hhd_kept : hd ∈ InMemoryStore.searchKept sqrt s p := by
        refine hperm.mem_iff.mp ?_
        rw [InMemoryStore.searchSorted] at hsort
        rw [show (InMemoryStore.searchKept sqrt s p).mergeSort
            (fun a b => decide (b.2 ≤ a.2)) = hd :: rest from hsort]
        exact List.mem_cons_self _ _
      obtain ⟨hhd_scored, hhd_thr⟩ := List.mem_filter.mp hhd_kept
      obtain ⟨mx, hmxC, hmx⟩ := List.mem_map.mp hhd_scored
      have hhd0 : (0 : K) ≤ hd.2 := by
        have := of_decide_eq_true hhd_thr
        rwa [hthr, Option.getD_some] at this
      have hhead_max : ∀ b ∈ rest, b.2 ≤ hd.2 := by
        have hpw := hsorted
        rw [InMemoryStore.searchSorted] at hsort
        rw [hsort] at hpw
        intro b hb
        exact of_decide_eq_true ((List.pairwise_cons.mp hpw).1 b hb)
      refine ⟨mx, hmxC, ?_, ?_⟩
      · rw [InMemoryStore.searchMemories, hsort, hcnt, ← hmx]
        rfl
      · intro m' hm'
        have hdle : cosineSimilarity sqrt p.embedding (mx.embedding.getD [])
            = hd.2 := by rw [← hmx]
        by_cases h0 : 0 ≤ cosineSimilarity sqrt p.embedding (m'.embedding.getD [])
        · have hkept' : (m', cosineSimilarity sqrt p.embedding (m'.embedding.getD []))
              ∈ InMemoryStore.searchKept sqrt s p := by
            refine List.mem_filter.mpr ⟨List.mem_map.mpr ⟨m', hm', rfl⟩, ?_⟩
            rw [hthr, Option.getD_some]
            exact decide_eq_true h0
          have hx := hperm.mem_iff.mpr hkept'
          rw [show (InMemoryStore.searchKept sqrt s p).mergeSort
              (fun a b => decide (b.2 ≤ a.2)) = hd :: rest from hsort] at hx
          rcases List.mem_cons.mp hx with heq | hrest
          · rw [hdle]
            rw [show cosineSimilarity sqrt p.embedding (m'.embedding.getD [])
                = ((m', cosineSimilarity sqrt p.embedding (m'.embedding.getD []))
                    : Memory K × K).2 from rfl, heq]
          · rw [hdle]
            exact hhead_max _ hrest
        · push_neg at h0
          rw [hdle]
          exact le_trans (le_of_lt h0) hhd0

/-- C6 witness parameters: query `[1]` (similarity 1 with `c6mem`),
threshold 0, count 1. -/
def c6paramsPos : SearchParams ℝ :=
  ⟨[1], some 0, some 1, false, "t", none, none, none⟩

/-- C6 witness: `C6_search_ordering` at the concrete store `c6store` with
query `[1]`, threshold 0 and count 1 — the single candidate has nonnegative
similarity, so the highest-similarity singleton is returned. -/
theorem C6_search_ordering_witness :
    ∃ mx ∈ InMemoryStore.searchCandidates c6store c6paramsPos,
      InMemoryStore.searchMemories Real.sqrt c6store c6paramsPos
        = [{ mx with
            similarity := some (cosineSimilarity Real.sqrt c6paramsPos.embedding (mx.embedding.getD [])) }] ∧
      ∀ m' ∈ InMemoryStore.searchCandidates c6store c6paramsPos,
        cosineSimilarity Real.sqrt c6paramsPos.embedding (m'.embedding.getD [])
          ≤ cosineSimilarity Real.sqrt c6paramsPos.embedding (mx.embedding.getD []) :=
  (C6_search_ordering ℝ Real.sqrt c6store c6paramsPos).2.2.2 rfl rfl c6mem
    (by
      rw [show InMemoryStore.searchCandidates c6store c6paramsPos = [c6mem] from rfl]
      exact List.mem_cons_self _ _)
    (by
      show (0:ℝ) ≤ cosineSimilarity Real.sqrt [1] ((some [1]).getD [])
      rw [Option.getD_some]
      norm_num [cosineSimilarity, normSq, dotProduct, Real.sqrt_one])

end ElizaAdapter
